import Mathlib

/-!
# Alias listing service (`aliases.go`)

A shallow embedding of `AliasesService` (the builder and its `Do` method) and of
`AliasesResult` (the decoded model and its two queries), followed by theorems about them.

Conventions of the embedding.

* Go strings are Lean strings; Go slices are `Slice`, which keeps the difference between the
  `nil` slice and an empty one made by `make`.
* A Go map is an association list (`GoMap`) whose keys are kept distinct by `GoMap.set`; the
  order in which a `range` statement visits a map is not fixed by the language, so every loop
  over a map asks a `MapOrder` for the order of that visit.
* Code outside `aliases.go` that `Do` calls (`cleanPathString`, `Client.NewRequest`, the HTTP
  client, `checkResponse`, `httputil.DumpRequestOut`, the text that `httputil.DumpResponse`
  writes) is a field of `Deps`.
* The body of a response is a reader with a state (`Body`): `ioutil.ReadAll` and
  `httputil.DumpResponse` read it, the second one also closes it and puts a copy in its place.
* The bytes of a response body are seen through the scanner of `encoding/json`: either they are
  not JSON, or they are a JSON value (`Json`), in which an object is the list of its members as
  written, repeated names included, and a number is its literal; a number outside `float64`
  makes `json.Unmarshal` fail.
-/

namespace Elastic

/-! ## Go values -/

/-- A Go slice: the nil slice, or a slice with the listed elements. -/
inductive Slice (α : Type) where
  | nil
  | mk (elems : List α)
  deriving DecidableEq, Repr

namespace Slice

/-- The elements visited by `range`, in order. -/
def toList {α : Type} : Slice α → List α
  | nil => []
  | mk elems => elems

/-- The slice `make([]T, 0)`. -/
def make0 {α : Type} : Slice α := mk []

/-- The slice `append(s, x)`. -/
def append {α : Type} (s : Slice α) (x : α) : Slice α := mk (s.toList ++ [x])

/-- The slice `append(s, xs...)`: appending nothing returns `s` itself. -/
def appendAll {α : Type} (s : Slice α) (xs : List α) : Slice α :=
  match xs with
  | [] => s
  | _ :: _ => mk (s.toList ++ xs)

/-- The test `s != nil`. -/
def isNonNil {α : Type} : Slice α → Bool
  | nil => false
  | mk _ => true

/-- The value `len(s)`. -/
def len {α : Type} (s : Slice α) : Nat := s.toList.length

end Slice

/-- A Go map with string keys, as the list of its entries. -/
abbrev GoMap (α : Type) := List (String × α)

namespace GoMap

/-- The keys of the map. -/
def keys {α : Type} (m : GoMap α) : List String := m.map Prod.fst

/-- The lookup `v, found := m[k]`. -/
def get? {α : Type} : GoMap α → String → Option α
  | [], _ => none
  | (k', v) :: rest, k => if k' = k then some v else get? rest k

/-- The assignment `m[k] = v`. -/
def set {α : Type} : GoMap α → String → α → GoMap α
  | [], k, v => [(k, v)]
  | (k', v') :: rest, k, v => if k' = k then (k, v) :: rest else (k', v') :: set rest k v

/-- Keys of a Go map are pairwise distinct. -/
def WF {α : Type} (m : GoMap α) : Prop := m.keys.Nodup

instance {α : Type} (m : GoMap α) : Decidable (WF m) :=
  inferInstanceAs (Decidable (m.keys.Nodup))

end GoMap

/-- The order in which each `range` over a map visits the entries: some rearrangement of the
entries, which may depend on the loop (`site`) and on the map. -/
structure MapOrder where
  range : (α : Type) → (site : Option String) → GoMap α → GoMap α
  perm : ∀ (α : Type) (site : Option String) (m : GoMap α), (range α site m).Perm m

/-- The order that visits every map as it is stored. -/
def MapOrder.stored : MapOrder where
  range := fun _ _ m => m
  perm := fun _ _ m => List.Perm.refl m

/-- The order that visits every map backwards. -/
def MapOrder.backwards : MapOrder where
  range := fun _ _ m => m.reverse
  perm := fun _ _ m => List.reverse_perm m

/-! ## The builder -/

/-- The fields of `AliasesService` other than the client. -/
structure AliasesService where
  indices : Slice String
  pretty : Bool
  debug : Bool
  deriving DecidableEq, Repr

/-- The builder made by `NewAliasesService`. -/
def NewAliasesService : AliasesService :=
  { indices := Slice.make0, pretty := false, debug := false }

namespace AliasesService

def Pretty (s : AliasesService) (pretty : Bool) : AliasesService :=
  { s with pretty := pretty }

def Debug (s : AliasesService) (debug : Bool) : AliasesService :=
  { s with debug := debug }

def Index (s : AliasesService) (indexName : String) : AliasesService :=
  { s with indices := s.indices.append indexName }

def Indices (s : AliasesService) (indexNames : List String) : AliasesService :=
  { s with indices := s.indices.appendAll indexNames }

end AliasesService

/-- The function `strings.Join`. -/
def stringsJoin (elems : List String) (sep : String) : String :=
  match elems with
  | [] => ""
  | e :: rest => rest.foldl (fun acc x => acc ++ sep ++ x) e

/-- Lines 53-66 of `Do`: the value of `urls` when the request is created. -/
def doPath (cleanPathString : String → String) (s : AliasesService) : String :=
  let urls := "/"
  let indexPart := s.indices.toList.foldl
    (fun indexPart index => indexPart.append (cleanPathString index)) Slice.make0
  let urls := urls ++ stringsJoin indexPart.toList ","
  urls ++ "/_aliases"

/-! ## The query string: `net/url` and `fmt` -/

/-- The bytes of the UTF-8 form of a code point. -/
def utf8Bytes (c : Nat) : List Nat :=
  if c < 0x80 then [c]
  else if c < 0x800 then [0xC0 + c / 64, 0x80 + c % 64]
  else if c < 0x10000 then [0xE0 + c / 4096, 0x80 + c / 64 % 64, 0x80 + c % 64]
  else [0xF0 + c / 262144, 0x80 + c / 4096 % 64, 0x80 + c / 64 % 64, 0x80 + c % 64]

/-- One upper-case hexadecimal digit. -/
def upperhex (n : Nat) : Char := "0123456789ABCDEF".data.getD n '0'

/-- The bytes that `url.QueryEscape` leaves as they are. -/
def queryUnreserved (c : Char) : Bool :=
  c.isAlphanum || c = '-' || c = '_' || c = '.' || c = '~'

/-- The function `url.QueryEscape`. -/
def QueryEscape (s : String) : String :=
  String.mk (s.data.flatMap fun c =>
    if queryUnreserved c then [c]
    else if c = ' ' then ['+']
    else (utf8Bytes c.toNat).flatMap fun b => ['%', upperhex (b / 16), upperhex (b % 16)])

/-- The type `url.Values`. -/
abbrev Values := GoMap (List String)

/-- The method `Values.Set`. -/
def Values.Set (v : Values) (key value : String) : Values := GoMap.set v key [value]

/-- The method `Values.Encode`: the keys sorted, every pair escaped, joined by an ampersand. -/
def Values.Encode (v : Values) : String :=
  let keys := (GoMap.keys v).insertionSort (fun a b => a ≤ b)
  let pairs := keys.flatMap fun k =>
    ((GoMap.get? v k).getD []).map fun value => QueryEscape k ++ "=" ++ QueryEscape value
  stringsJoin pairs "&"

/-- The call `fmt.Sprintf("%v", b)` on a boolean. -/
def sprintfV (b : Bool) : String := if b then "true" else "false"

/-- Lines 75-78 of `Do`: the parameters. -/
def doParams (s : AliasesService) : Values :=
  let params : Values := []
  if s.pretty then params.Set "pretty" (sprintfV s.pretty) else params

example : doPath id NewAliasesService = "//_aliases" := by decide
example : doPath id ((NewAliasesService.Index "a").Indices ["b", "c"]) = "/a,b,c/_aliases" := by
  decide
example : (doParams (NewAliasesService.Pretty true)).Encode = "pretty=true" := by decide
example : QueryEscape "a b/ü" = "a+b%2F%C3%BC" := by decide

/-! ## JSON and `encoding/json` -/

/-- A JSON value as written in a document: an object is the list of its members in the order
of the text, and a name may be repeated. -/
inductive Json where
  | null
  | bool (b : Bool)
  | number (literal : String)
  | string (s : String)
  | array (elems : List Json)
  | object (members : List (String × Json))

/-- A value of type `interface{}` as `encoding/json` produces it. -/
inductive GoVal where
  | nil
  | bool (b : Bool)
  | float64 (literal : String)
  | string (s : String)
  | slice (elems : List GoVal)
  | map (m : List (String × GoVal))

/-- The number written by a list of decimal digits. -/
def digitsValue (digits : List Char) : Nat :=
  digits.foldl (fun acc c => acc * 10 + (c.toNat - '0'.toNat)) 0

/-- The characters of a literal after its sign, if it has one. -/
def dropSign : List Char → List Char
  | [] => []
  | c :: rest => if c = '-' ∨ c = '+' then rest else c :: rest

/-- The characters of a literal after the mark that opens a part (the point of a fraction,
the letter of an exponent), or nothing when the literal does not go on with that mark. -/
def afterMark (marks : List Char) : List Char → List Char
  | [] => []
  | c :: rest => if c ∈ marks then rest else []

/-- Whether `strconv.ParseFloat(literal, 64)` succeeds on the literal of a JSON number: it
fails with a range error exactly when the number rounds to an infinity, that is when its
magnitude is at least `2^1024 - 2^970`, half a step above the largest `float64`. The literal
is an integer part, an optional fraction and an optional exponent; its magnitude is the
digits of both parts, times ten to the exponent less the length of the fraction. -/
def float64Fits (literal : String) : Bool :=
  let cs := dropSign literal.data
  let intPart := cs.takeWhile Char.isDigit
  let cs := cs.dropWhile Char.isDigit
  let fracPart := (afterMark ['.'] cs).takeWhile Char.isDigit
  let cs := if fracPart = [] then cs else (afterMark ['.'] cs).dropWhile Char.isDigit
  let expNegative := decide ((afterMark ['e', 'E'] cs).head? = some '-')
  let expDigits := (dropSign (afterMark ['e', 'E'] cs)).takeWhile Char.isDigit
  let mantissa := digitsValue (intPart ++ fracPart)
  let scaleUp := if expNegative then 0 else digitsValue expDigits
  let scaleDown := fracPart.length + (if expNegative then digitsValue expDigits else 0)
  decide (mantissa * 10 ^ scaleUp < (2 ^ 1024 - 2 ^ 970) * 10 ^ scaleDown)

mutual
/-- The value stored for a JSON value decoded into an empty `interface{}`: a number that
does not fit `float64` leaves the nil value. -/
def Json.toGoVal : Json → GoVal
  | .null => .nil
  | .bool b => .bool b
  | .number literal => if float64Fits literal then .float64 literal else .nil
  | .string s => .string s
  | .array elems => .slice (Json.toGoVals elems)
  | .object members => .map (Json.toGoMap [] members)
/-- The elements of a JSON array, decoded one by one. -/
def Json.toGoVals : List Json → List GoVal
  | [] => []
  | e :: rest => Json.toGoVal e :: Json.toGoVals rest
/-- The members of a JSON object, stored one by one into the map `m`: a repeated name
overwrites the entry stored before. -/
def Json.toGoMap (m : GoMap GoVal) : List (String × Json) → GoMap GoVal
  | [] => m
  | (k, v) :: rest => Json.toGoMap (GoMap.set m k (Json.toGoVal v)) rest
end

mutual
/-- The first number of a JSON value, in the order of the text, that does not fit `float64`:
the decoder saves the error of the first such number and goes on. -/
def Json.rangeError? : Json → Option String
  | .null => none
  | .bool _ => none
  | .number literal => if float64Fits literal then none else some literal
  | .string _ => none
  | .array elems => Json.rangeErrorIn? elems
  | .object members => Json.rangeErrorAmong? members
/-- The first number that does not fit `float64` in the elements of an array. -/
def Json.rangeErrorIn? : List Json → Option String
  | [] => none
  | e :: rest =>
    match Json.rangeError? e with
    | some literal => some literal
    | none => Json.rangeErrorIn? rest
/-- The first number that does not fit `float64` in the members of an object. -/
def Json.rangeErrorAmong? : List (String × Json) → Option String
  | [] => none
  | (_, v) :: rest =>
    match Json.rangeError? v with
    | some literal => some literal
    | none => Json.rangeErrorAmong? rest
end

/-- The errors `Do` can return. -/
inductive GoError where
  /-- The error `*json.SyntaxError`: the bytes are not JSON. -/
  | SyntaxError (msg : String)
  /-- The error `*json.UnmarshalTypeError`: a JSON value of kind `value` has no place in the
  Go value decoded into. -/
  | UnmarshalTypeError (value : String)
  /-- An error of the client, the transport or the body reader. -/
  | other (msg : String)
  deriving DecidableEq, Repr

/-- The bytes of a body, as the scanner of `encoding/json` sees them. -/
inductive Scan where
  | invalid (msg : String)
  | valid (v : Json)

/-- The call `json.Unmarshal(data, &indexMap)` for `indexMap` of type
`map[string]interface{}`: the bytes are checked first; an object is stored member by member
into the map, and the call returns the type error saved for the first number, at any depth,
that does not fit `float64`; `null` sets the map to nil and is no error; every other value
is a type error. -/
def jsonUnmarshal (data : Scan) (indexMap : GoMap GoVal) : Except GoError (GoMap GoVal) :=
  match data with
  | .invalid msg => .error (.SyntaxError msg)
  | .valid (.object members) =>
    match Json.rangeErrorAmong? members with
    | some literal => .error (.UnmarshalTypeError ("number " ++ literal))
    | none => .ok (Json.toGoMap indexMap members)
  | .valid .null => .ok []
  | .valid (.array _) => .error (.UnmarshalTypeError "array")
  | .valid (.string _) => .error (.UnmarshalTypeError "string")
  | .valid (.number _) => .error (.UnmarshalTypeError "number")
  | .valid (.bool _) => .error (.UnmarshalTypeError "bool")

/-! ## The result -/

/-- The type `aliasResult`. -/
structure aliasResult where
  AliasName : String
  deriving DecidableEq, Repr

/-- The type `indexResult`. -/
structure indexResult where
  Aliases : Slice aliasResult
  deriving DecidableEq, Repr

/-- The type `AliasesResult`. -/
structure AliasesResult where
  Indices : GoMap indexResult
  deriving DecidableEq, Repr

/-- Lines 126-143 of `Do`: one round of the loop over `indexMap`. -/
def doIndex (order : MapOrder) (ret : AliasesResult) (indexName : String) (indexData : GoVal) :
    AliasesResult :=
  let indexOut : indexResult :=
    match GoMap.get? ret.Indices indexName with
    | some found => found
    | none => { Aliases := Slice.make0 }
  let indexOut : indexResult :=
    match indexData with
    | .map indexDataMap =>
      match GoMap.get? indexDataMap "aliases" with
      | some (.map aliasesData) =>
        (order.range GoVal (some indexName) aliasesData).foldl
          (fun indexOut entry =>
            let aliasRes : aliasResult := { AliasName := entry.1 }
            { Aliases := indexOut.Aliases.append aliasRes })
          indexOut
      | _ => indexOut
    | _ => indexOut
  { Indices := GoMap.set ret.Indices indexName indexOut }

/-- Lines 122-146 of `Do`: the result built from the parsed map. -/
def doIndices (order : MapOrder) (indexMap : GoMap GoVal) : AliasesResult :=
  (order.range GoVal none indexMap).foldl
    (fun ret entry => doIndex order ret entry.1 entry.2)
    { Indices := [] }

/-- Lines 116-146 of `Do`: the result decoded from the bytes of the body. -/
def doDecode (order : MapOrder) (bodyBytes : Scan) : Except GoError AliasesResult :=
  let indexMap : GoMap GoVal := []
  match jsonUnmarshal bodyBytes indexMap with
  | .error err => .error err
  | .ok indexMap => .ok (doIndices order indexMap)

/-! ## The request -/

/-- A request made by `Client.NewRequest`. -/
structure Request where
  method : String
  url : String
  deriving DecidableEq, Repr

/-- The body of a response, a reader that is read and then closed: `reads` lists what the
successive readings to the end of the body give, each one the bytes read or the error that
stopped it, and a reading after the last one listed finds no bytes; `closeErr` is the error of
`Close`, if it has one. -/
structure Body where
  reads : List (Except GoError Scan)
  closeErr : Option GoError

/-- What `encoding/json` makes of no bytes at all. -/
def Scan.noBytes : Scan := .invalid "unexpected end of JSON input"

/-- A body that gives `content` at the first reading and closes without error. -/
def Body.whole (content : Scan) : Body := { reads := [.ok content], closeErr := none }

/-- A body every reading of which fails with `e`. -/
def Body.broken (e : GoError) : Body := { reads := [.error e, .error e], closeErr := none }

/-- A body that gives `content` at the first reading and whose `Close` fails with `e`. -/
def Body.failingClose (content : Scan) (e : GoError) : Body :=
  { reads := [.ok content], closeErr := some e }

/-- A body whose first reading fails with `e` and whose next reading gives `content`. -/
def Body.stumbling (e : GoError) (content : Scan) : Body :=
  { reads := [.error e, .ok content], closeErr := none }

/-- The call `ioutil.ReadAll(b)`: what the next reading to the end gives, and the body as it
is left. -/
def ioutilReadAll (b : Body) : Except GoError Scan × Body :=
  match b.reads with
  | [] => (.ok Scan.noBytes, b)
  | outcome :: rest => (outcome, { b with reads := rest })

/-- A response of the HTTP client: its status and its body. -/
structure Response where
  StatusCode : Nat
  Body : Body

/-- The call `httputil.DumpResponse(res, true)`: it reads the body to the end and closes it;
when both go well it puts a copy of the bytes in place of the body and returns the dump, and
when one of them fails it returns no dump and leaves the body as far as it was read.
`text` writes the dump of a response whose bytes were read. -/
def DumpResponse (text : Response → String) (res : Response) : Option String × Response :=
  match ioutilReadAll res.Body with
  | (.error _, rest) => (none, { res with Body := rest })
  | (.ok content, rest) =>
    match res.Body.closeErr with
    | some _ => (none, { res with Body := rest })
    | none => (some (text res), { res with Body := Body.whole content })

/-- The code `Do` calls that is not in `aliases.go`; of `httputil.DumpResponse` only the text
of the dump, `responseText`. -/
structure Deps where
  cleanPathString : String → String
  NewRequest : String → String → Except GoError Request
  clientDo : Request → Except GoError Response
  checkResponse : Response → Option GoError
  DumpRequestOut : Request → String
  responseText : Response → String

/-- Lines 96-99 of `Do`: the response as it stands after them, dumped when `debug` is set. -/
def resAfterDebug (deps : Deps) (s : AliasesService) (res : Response) : Response :=
  if s.debug then (DumpResponse deps.responseText res).2 else res

/-- What one run of `Do` did and returned. -/
structure DoRun where
  /-- The url given to `client.NewRequest`. -/
  target : String
  /-- The value of `params.Encode()`, once it is computed. -/
  query : Option String
  /-- The value of the variable `urls` at the return. -/
  urls : String
  /-- The request given to `client.c.Do`. -/
  sent : Option Request
  /-- The lines printed. -/
  printed : List String
  /-- Whether `res.Body.Close()` has run at the return. -/
  closed : Bool
  /-- The first value returned. -/
  result : Option AliasesResult
  /-- The second value returned. -/
  err : Option GoError

/-- The method `AliasesService.Do`. -/
def AliasesService.Do (deps : Deps) (order : MapOrder) (s : AliasesService) : DoRun :=
  let urls := doPath deps.cleanPathString s
  let run : DoRun :=
    { target := urls, query := none, urls := urls, sent := none, printed := [],
      closed := false, result := none, err := none }
  match deps.NewRequest "GET" urls with
  | .error err => { run with err := some err }
  | .ok req =>
    let params := doParams s
    let urls := urls ++ "?" ++ params.Encode
    let run := { run with query := some params.Encode, urls := urls }
    let run :=
      if s.debug then { run with printed := run.printed ++ [deps.DumpRequestOut req ++ "\n"] }
      else run
    let run := { run with sent := some req }
    match deps.clientDo req with
    | .error err => { run with err := some err }
    | .ok res =>
      match deps.checkResponse res with
      | some err => { run with err := some err }
      | none =>
        -- `defer res.Body.Close()`: from here on the body that the client returned is
        -- closed at every return
        let run := { run with closed := true }
        let run :=
          if s.debug then
            { run with printed := run.printed ++
                [(DumpResponse deps.responseText res).1.getD "" ++ "\n"] }
          else run
        let res := resAfterDebug deps s res
        match (ioutilReadAll res.Body).1 with
        | .error err => { run with err := some err }
        | .ok bodyBytes =>
          match doDecode order bodyBytes with
          | .error err => { run with err := some err }
          | .ok ret => { run with result := some ret }

/-- The method `AliasesResult.IndicesByAlias`. -/
def AliasesResult.IndicesByAlias (order : MapOrder) (ar : AliasesResult) (aliasName : String) :
    Slice String :=
  (order.range indexResult none ar.Indices).foldl
    (fun indices entry =>
      entry.2.Aliases.toList.foldl
        (fun indices aliasInfo =>
          if aliasInfo.AliasName = aliasName then indices.append entry.1 else indices)
        indices)
    Slice.make0

/-- The loop of `indexResult.HasAlias` over the aliases still to visit. -/
def hasAliasFrom (aliasName : String) : List aliasResult → Bool
  | [] => false
  | entry :: rest => if entry.AliasName = aliasName then true else hasAliasFrom aliasName rest

/-- The method `indexResult.HasAlias`. -/
def indexResult.HasAlias (ir : indexResult) (aliasName : String) : Bool :=
  hasAliasFrom aliasName ir.Aliases.toList

/-! ## Sample collaborators -/

/-- A client whose every request succeeds with status 200 and the given body; index names
are put in the path as they are. -/
def Deps.serving (body : Scan) : Deps where
  cleanPathString := fun index => index
  NewRequest := fun method url => .ok { method := method, url := url }
  clientDo := fun _ => .ok { StatusCode := 200, Body := Body.whole body }
  checkResponse := fun _ => none
  DumpRequestOut := fun req => req.method ++ " " ++ req.url
  responseText := fun _ => "200"

/-- A client that cannot make the request: `NewRequest` fails with `e`. -/
def Deps.refusing (e : GoError) : Deps where
  cleanPathString := fun index => index
  NewRequest := fun _ _ => .error e
  clientDo := fun _ => .ok { StatusCode := 200, Body := Body.whole (.valid (.object [])) }
  checkResponse := fun _ => none
  DumpRequestOut := fun req => req.method ++ " " ++ req.url
  responseText := fun _ => "200"

/-- A client whose transport fails with `e`: no response comes back. -/
def Deps.unreachable (e : GoError) : Deps where
  cleanPathString := fun index => index
  NewRequest := fun method url => .ok { method := method, url := url }
  clientDo := fun _ => .error e
  checkResponse := fun _ => none
  DumpRequestOut := fun req => req.method ++ " " ++ req.url
  responseText := fun _ => "200"

/-- A client whose transport answers with status 500 and the given body, an answer that
`checkResponse` rejects with `e`. -/
def Deps.rejecting (e : GoError) (body : Scan) : Deps where
  cleanPathString := fun index => index
  NewRequest := fun method url => .ok { method := method, url := url }
  clientDo := fun _ => .ok { StatusCode := 500, Body := Body.whole body }
  checkResponse := fun res => if res.StatusCode = 200 then none else some e
  DumpRequestOut := fun req => req.method ++ " " ++ req.url
  responseText := fun _ => "500"

/-- A client whose transport answers with status 200 and a body that cannot be read: every
reading of it fails with `e`. -/
def Deps.truncating (e : GoError) : Deps where
  cleanPathString := fun index => index
  NewRequest := fun method url => .ok { method := method, url := url }
  clientDo := fun _ => .ok { StatusCode := 200, Body := Body.broken e }
  checkResponse := fun _ => none
  DumpRequestOut := fun req => req.method ++ " " ++ req.url
  responseText := fun _ => "200"

/-- A client whose transport answers with status 200 and the body `b`. -/
def Deps.answering (b : Body) : Deps where
  cleanPathString := fun index => index
  NewRequest := fun method url => .ok { method := method, url := url }
  clientDo := fun _ => .ok { StatusCode := 200, Body := b }
  checkResponse := fun _ => none
  DumpRequestOut := fun req => req.method ++ " " ++ req.url
  responseText := fun _ => "200"

/-- The document `{"idx":{"aliases":{"a":{},"b":{}}}}`. -/
def docIdxAB : Json :=
  .object [("idx", .object [("aliases", .object [("a", .object []), ("b", .object [])])])]

/-! ## Reading a JSON document -/

/-- The value of the member named `k` among the members of an object: the last member
written with that name, which is the one `encoding/json` keeps. -/
def Json.member? : List (String × Json) → String → Option Json
  | [], _ => none
  | (k', v) :: rest, k =>
    match Json.member? rest k with
    | some w => some w
    | none => if k' = k then some v else none

/-- The names of the members of an object, as written. -/
def Json.names (members : List (String × Json)) : List String := members.map Prod.fst

/-- The transport hands the body `body` to `Do`: the request is made, the client answers, the
answer passes `checkResponse`, and `ioutil.ReadAll` on line 112 reads `body`. -/
def Deps.delivers (deps : Deps) (s : AliasesService) (body : Scan) : Prop :=
  ∃ req res, deps.NewRequest "GET" (doPath deps.cleanPathString s) = .ok req ∧
    deps.clientDo req = .ok res ∧ deps.checkResponse res = none ∧
    (ioutilReadAll (resAfterDebug deps s res).Body).1 = .ok body

/-- A body on which the dump of `debug` leaves no trace: it is read to the end and closed
without error, or a reading of it that fails is followed by one that fails alike. -/
def Body.steady (b : Body) : Prop :=
  match b.reads with
  | [] => b.closeErr = none
  | .ok _ :: _ => b.closeErr = none
  | .error e :: rest => rest.head? = some (.error e)

/-- The entry `doIndex` stores for an index name that has no entry yet. -/
def freshEntry (order : MapOrder) (indexName : String) (indexData : GoVal) : indexResult :=
  match indexData with
  | .map indexDataMap =>
    match GoMap.get? indexDataMap "aliases" with
    | some (.map aliasesData) =>
      { Aliases := .mk ((order.range GoVal (some indexName) aliasesData).map
          fun entry => { AliasName := entry.1 }) }
    | _ => { Aliases := Slice.make0 }
  | _ => { Aliases := Slice.make0 }

/-- The entries `Do` stores for a parsed map none of whose keys is repeated: one entry for
every key, in the order of the visit. -/
def decodedIndices (order : MapOrder) (indexMap : GoMap GoVal) : GoMap indexResult :=
  (order.range GoVal none indexMap).map
    fun entry => (entry.1, freshEntry order entry.1 entry.2)

/-- Two results agree up to the order of the aliases: they have the same keys, and under
every key alias lists that are rearrangements of one another. -/
def AliasesResult.sameUpToOrder (a1 a2 : AliasesResult) : Prop :=
  (GoMap.keys a1.Indices).Perm (GoMap.keys a2.Indices) ∧
  ∀ i, Option.Rel (fun e1 e2 : indexResult => e1.Aliases.toList.Perm e2.Aliases.toList)
    (GoMap.get? a1.Indices i) (GoMap.get? a2.Indices i)

/-! ## Go maps -/

namespace GoMap

theorem get?_set {α : Type} (m : GoMap α) (k k' : String) (v : α) :
    get? (set m k v) k' = if k = k' then some v else get? m k' := by
  induction m with
  | nil => simp [set, get?]
  | cons e rest ih =>
    obtain ⟨k0, v0⟩ := e
    by_cases h0 : k0 = k
    · subst h0
      by_cases h1 : k0 = k' <;> simp [set, get?, h1]
    · by_cases h1 : k = k'
      · subst h1
        simp [set, get?, h0, ih]
      · simp [set, get?, h0, ih, h1]

theorem get?_eq_none {α : Type} (m : GoMap α) (k : String) :
    get? m k = none ↔ k ∉ keys m := by
  induction m with
  | nil => simp [get?, keys]
  | cons e rest ih =>
    obtain ⟨k0, v0⟩ := e
    by_cases h0 : k0 = k
    · simp [get?, keys, h0]
    · have hk : ¬ k = k0 := fun h => h0 h.symm
      simpa [get?, keys, h0, hk] using ih

theorem set_of_not_mem {α : Type} (m : GoMap α) (k : String) (v : α) (h : k ∉ keys m) :
    set m k v = m ++ [(k, v)] := by
  induction m with
  | nil => rfl
  | cons e rest ih =>
    obtain ⟨k0, v0⟩ := e
    simp only [keys, List.map_cons, List.mem_cons, not_or] at h
    have h0 : ¬ k0 = k := fun h' => h.1 h'.symm
    have ih' := ih (by simpa [keys] using h.2)
    simp [set, h0, ih']

theorem mem_keys_set {α : Type} (m : GoMap α) (k k' : String) (v : α) :
    k' ∈ keys (set m k v) ↔ k' = k ∨ k' ∈ keys m := by
  induction m with
  | nil => simp [set, keys]
  | cons e rest ih =>
    obtain ⟨k0, v0⟩ := e
    by_cases h0 : k0 = k
    · subst h0
      simp [set, keys]
    · have ih' : k' ∈ List.map Prod.fst (set rest k v) ↔ k' = k ∨ k' ∈ List.map Prod.fst rest := ih
      simp only [set, h0, if_false, keys, List.map_cons, List.mem_cons, ih']
      tauto

theorem WF_set {α : Type} (m : GoMap α) (k : String) (v : α) (h : WF m) : WF (set m k v) := by
  induction m with
  | nil => simp [set, WF, keys]
  | cons e rest ih =>
    obtain ⟨k0, v0⟩ := e
    have h' : k0 ∉ keys rest ∧ WF rest := by simpa [WF, keys] using h
    by_cases h0 : k0 = k
    · subst h0
      simpa [set, WF, keys] using h
    · have hmem : k0 ∉ keys (set rest k v) := by
        rw [mem_keys_set]
        exact fun hh => hh.elim h0 h'.1
      have hwf : WF (set rest k v) := ih h'.2
      simp only [set, h0, if_false, WF, keys, List.map_cons, List.nodup_cons]
      exact ⟨hmem, hwf⟩

theorem get?_of_mem {α : Type} (m : GoMap α) (k : String) (v : α) (hwf : WF m)
    (h : (k, v) ∈ m) : get? m k = some v := by
  induction m with
  | nil => simp at h
  | cons e rest ih =>
    obtain ⟨k0, v0⟩ := e
    have h' : k0 ∉ keys rest ∧ WF rest := by simpa [WF, keys] using hwf
    rcases List.mem_cons.mp h with heq | hin
    · cases heq
      simp [get?]
    · have hk : k ∈ keys rest := List.mem_map.mpr ⟨(k, v), hin, rfl⟩
      have h0 : ¬ k0 = k := fun hh => h'.1 (hh ▸ hk)
      simp [get?, h0, ih h'.2 hin]

theorem mem_of_get? {α : Type} (m : GoMap α) (k : String) (v : α) (h : get? m k = some v) :
    (k, v) ∈ m := by
  induction m with
  | nil => simp [get?] at h
  | cons e rest ih =>
    obtain ⟨k0, v0⟩ := e
    by_cases h0 : k0 = k
    · subst h0
      simp only [get?, if_true, Option.some.injEq] at h
      simp [h]
    · simp only [get?, h0, if_false] at h
      exact List.mem_cons_of_mem _ (ih h)

end GoMap

/-! ## The decoder of `encoding/json` -/

theorem get?_toGoMap (members : List (String × Json)) (m : GoMap GoVal) (k : String) :
    GoMap.get? (Json.toGoMap m members) k =
      match Json.member? members k with
      | some v => some v.toGoVal
      | none => GoMap.get? m k := by
  induction members generalizing m with
  | nil => simp [Json.toGoMap, Json.member?]
  | cons e rest ih =>
    obtain ⟨k0, v0⟩ := e
    rw [Json.toGoMap, ih, Json.member?]
    cases hrest : Json.member? rest k with
    | some w => simp
    | none =>
      by_cases h0 : k0 = k
      · simp [GoMap.get?_set, h0]
      · simp [GoMap.get?_set, h0]

theorem mem_keys_toGoMap (members : List (String × Json)) (m : GoMap GoVal) (k : String) :
    k ∈ GoMap.keys (Json.toGoMap m members) ↔ k ∈ GoMap.keys m ∨ k ∈ Json.names members := by
  induction members generalizing m with
  | nil => simp [Json.toGoMap, Json.names]
  | cons e rest ih =>
    obtain ⟨k0, v0⟩ := e
    rw [Json.toGoMap, ih, GoMap.mem_keys_set]
    simp only [Json.names, List.map_cons, List.mem_cons]
    tauto

theorem WF_toGoMap (members : List (String × Json)) (m : GoMap GoVal) (h : GoMap.WF m) :
    GoMap.WF (Json.toGoMap m members) := by
  induction members generalizing m with
  | nil => simpa [Json.toGoMap] using h
  | cons e rest ih =>
    obtain ⟨k0, v0⟩ := e
    rw [Json.toGoMap]
    exact ih _ (GoMap.WF_set m k0 _ h)

theorem toGoVal_eq_map (v : Json) (m : GoMap GoVal) :
    v.toGoVal = .map m ↔ ∃ members, v = .object members ∧ m = Json.toGoMap [] members := by
  cases v with
  | number literal => cases hfit : float64Fits literal <;> simp [Json.toGoVal, hfit]
  | _ => simp [Json.toGoVal, eq_comm]

/-! ## The loop of `Do` over the parsed map -/

theorem foldl_aliases (l : List (String × GoVal)) (acc : List aliasResult) :
    l.foldl (fun (indexOut : indexResult) entry =>
        ({ Aliases := indexOut.Aliases.append { AliasName := entry.1 } } : indexResult))
      { Aliases := .mk acc }
    = { Aliases := .mk (acc ++ l.map fun entry => { AliasName := entry.1 }) } := by
  induction l generalizing acc with
  | nil => simp
  | cons e rest ih =>
    rw [List.foldl_cons]
    show List.foldl _ ({ Aliases := .mk (acc ++ [{ AliasName := e.1 }]) } : indexResult) rest = _
    rw [ih]
    simp

theorem doIndex_fresh (order : MapOrder) (ret : AliasesResult) (indexName : String)
    (indexData : GoVal) (h : indexName ∉ GoMap.keys ret.Indices) :
    doIndex order ret indexName indexData =
      { Indices := ret.Indices ++ [(indexName, freshEntry order indexName indexData)] } := by
  have hnone : GoMap.get? ret.Indices indexName = none := (GoMap.get?_eq_none _ _).mpr h
  unfold doIndex freshEntry
  simp only [hnone]
  rw [GoMap.set_of_not_mem _ _ _ h]
  cases indexData with
  | map indexDataMap =>
    simp only []
    cases hget : GoMap.get? indexDataMap "aliases" with
    | none => rfl
    | some w =>
      cases w with
      | map aliasesData =>
        simp only [Slice.make0, foldl_aliases, List.nil_append]
      | _ => rfl
  | _ => rfl

theorem foldl_doIndex (order : MapOrder) (l : List (String × GoVal)) (ret : AliasesResult)
    (hnd : (GoMap.keys ret.Indices ++ GoMap.keys l).Nodup) :
    l.foldl (fun ret entry => doIndex order ret entry.1 entry.2) ret =
      { Indices := ret.Indices ++ l.map fun entry => (entry.1, freshEntry order entry.1 entry.2) } := by
  induction l generalizing ret with
  | nil => simp
  | cons e rest ih =>
    have hnd' : (GoMap.keys ret.Indices ++ e.1 :: GoMap.keys rest).Nodup := by
      simpa [GoMap.keys] using hnd
    have hnot : e.1 ∉ GoMap.keys ret.Indices := by
      intro hmem
      exact (List.nodup_append.mp hnd').2.2 hmem (List.mem_cons_self _ _)
    rw [List.foldl_cons, doIndex_fresh order ret e.1 e.2 hnot, ih]
    · simp
    · have : (GoMap.keys ret.Indices ++ [e.1] ++ GoMap.keys rest).Nodup := by
        simpa using hnd'
      simpa [GoMap.keys] using this

theorem doIndices_eq (order : MapOrder) (indexMap : GoMap GoVal) (h : GoMap.WF indexMap) :
    doIndices order indexMap = { Indices := decodedIndices order indexMap } := by
  have hperm := order.perm GoVal none indexMap
  have hnd : (GoMap.keys (order.range GoVal none indexMap)).Nodup :=
    (List.Perm.nodup_iff (hperm.map Prod.fst)).mpr h
  unfold doIndices
  rw [foldl_doIndex order _ _ (by simpa [GoMap.keys] using hnd)]
  simp [decodedIndices]

/-! ## From the transport to the decoder -/

theorem Do_of_delivers (deps : Deps) (order : MapOrder) (s : AliasesService) (body : Scan)
    (h : deps.delivers s body) :
    (s.Do deps order).result = (doDecode order body).toOption ∧
    (s.Do deps order).err =
      (match doDecode order body with
       | .ok _ => none
       | .error err => some err) := by
  obtain ⟨req, res, h1, h2, h3, h4⟩ := h
  unfold AliasesService.Do
  simp only [h1, h2, h3, h4]
  cases hd : doDecode order body <;> cases s.debug <;> simp [Except.toOption]

theorem delivers_serving (body : Scan) (s : AliasesService) :
    (Deps.serving body).delivers s body := by
  refine ⟨_, _, rfl, rfl, rfl, ?_⟩
  cases hd : s.debug <;> simp [resAfterDebug, hd] <;> rfl

/-! ## The request path and the query string -/

theorem stringsJoin_eq_intercalate (elems : List String) (sep : String) :
    stringsJoin elems sep = sep.intercalate elems := by
  cases elems with
  | nil => rfl
  | cons e rest =>
    simp only [stringsJoin, String.intercalate]
    induction rest generalizing e with
    | nil => rfl
    | cons x rest ih =>
      rw [List.foldl_cons, String.intercalate.go]
      exact ih _

theorem foldl_indexPart (clean : String → String) (l : List String) (acc : List String) :
    (l.foldl (fun (indexPart : Slice String) index => indexPart.append (clean index))
      (.mk acc)).toList = acc ++ l.map clean := by
  induction l generalizing acc with
  | nil => simp [Slice.toList]
  | cons e rest ih =>
    rw [List.foldl_cons]
    show (List.foldl _ (Slice.mk (acc ++ [clean e])) rest).toList = _
    rw [ih]
    simp

theorem doPath_eq (clean : String → String) (s : AliasesService) :
    doPath clean s = "/" ++ ",".intercalate (s.indices.toList.map clean) ++ "/_aliases" := by
  unfold doPath
  simp only [Slice.make0, foldl_indexPart, List.nil_append, stringsJoin_eq_intercalate]

theorem Do_target (deps : Deps) (order : MapOrder) (s : AliasesService) :
    (s.Do deps order).target = doPath deps.cleanPathString s := by
  unfold AliasesService.Do
  simp only []
  repeat' split
  all_goals rfl

theorem Do_sent (deps : Deps) (order : MapOrder) (s : AliasesService) :
    (s.Do deps order).sent =
      (deps.NewRequest "GET" (doPath deps.cleanPathString s)).toOption := by
  unfold AliasesService.Do
  simp only []
  repeat' split
  all_goals simp_all [Except.toOption]

theorem Do_query_eq (deps : Deps) (order : MapOrder) (s : AliasesService) :
    (s.Do deps order).query =
      (deps.NewRequest "GET" (doPath deps.cleanPathString s)).toOption.map
        fun _ => (doParams s).Encode := by
  unfold AliasesService.Do
  simp only []
  repeat' split
  all_goals simp_all [Except.toOption]

theorem doParams_encode (s : AliasesService) :
    (doParams s).Encode = if s.pretty then "pretty=true" else "" := by
  unfold doParams
  cases s.pretty <;> decide

/-! ## The queries on the result -/

theorem foldl_matching (aliasName indexName : String) (l : List aliasResult)
    (acc : List String) :
    l.foldl (fun (indices : Slice String) aliasInfo =>
        if aliasInfo.AliasName = aliasName then indices.append indexName else indices)
      (.mk acc)
    = .mk (acc ++ List.replicate (l.countP fun x => x.AliasName = aliasName) indexName) := by
  induction l generalizing acc with
  | nil => simp
  | cons e rest ih =>
    rw [List.foldl_cons]
    by_cases he : e.AliasName = aliasName
    · rw [if_pos he]
      show List.foldl _ (Slice.mk (acc ++ [indexName])) rest = _
      rw [ih, List.countP_cons_of_pos _ _ (by simpa using he), List.replicate_succ]
      simp
    · rw [if_neg he, ih, List.countP_cons_of_neg _ _ (by simpa using he)]

theorem foldl_indices (aliasName : String) (l : List (String × indexResult))
    (acc : List String) :
    l.foldl (fun (indices : Slice String) entry =>
        entry.2.Aliases.toList.foldl
          (fun indices aliasInfo =>
            if aliasInfo.AliasName = aliasName then indices.append entry.1 else indices)
          indices)
      (.mk acc)
    = .mk (acc ++ l.flatMap fun entry =>
        List.replicate (entry.2.Aliases.toList.countP fun x => x.AliasName = aliasName)
          entry.1) := by
  induction l generalizing acc with
  | nil => simp
  | cons e rest ih =>
    rw [List.foldl_cons, foldl_matching, ih]
    simp

theorem IndicesByAlias_eq (order : MapOrder) (ar : AliasesResult) (aliasName : String) :
    ar.IndicesByAlias order aliasName =
      .mk ((order.range indexResult none ar.Indices).flatMap fun entry =>
        List.replicate (entry.2.Aliases.toList.countP fun x => x.AliasName = aliasName)
          entry.1) := by
  unfold AliasesResult.IndicesByAlias
  rw [Slice.make0, foldl_indices]
  simp

theorem mem_IndicesByAlias (order : MapOrder) (ar : AliasesResult) (aliasName i : String) :
    i ∈ (ar.IndicesByAlias order aliasName).toList ↔
      ∃ ir, (i, ir) ∈ ar.Indices ∧ ∃ x ∈ ir.Aliases.toList, x.AliasName = aliasName := by
  rw [IndicesByAlias_eq]
  simp only [Slice.toList, List.mem_flatMap, List.mem_replicate, ne_eq, List.countP_eq_zero,
    not_forall, Prod.exists]
  constructor
  · rintro ⟨k, ir, hmem, ⟨x, hx, hp⟩, rfl⟩
    exact ⟨ir, ((order.perm indexResult none ar.Indices).mem_iff).mp hmem, x, hx,
      by simpa using hp⟩
  · rintro ⟨ir, hmem, x, hx, hp⟩
    exact ⟨i, ir, ((order.perm indexResult none ar.Indices).mem_iff).mpr hmem,
      ⟨x, hx, by simpa using hp⟩, rfl⟩

theorem hasAliasFrom_iff (aliasName : String) (l : List aliasResult) :
    hasAliasFrom aliasName l = true ↔ ∃ x ∈ l, x.AliasName = aliasName := by
  induction l with
  | nil => simp [hasAliasFrom]
  | cons e rest ih =>
    by_cases he : e.AliasName = aliasName
    · simp [hasAliasFrom, he]
    · simp [hasAliasFrom, he, ih]

/-! ## The decoded result, read off the document -/

theorem doDecode_object (order : MapOrder) (members : List (String × Json))
    (hfit : Json.rangeErrorAmong? members = none) :
    doDecode order (.valid (.object members)) =
      .ok { Indices := decodedIndices order (Json.toGoMap [] members) } := by
  have hwf : GoMap.WF (Json.toGoMap [] members) :=
    WF_toGoMap members [] (by simp [GoMap.WF, GoMap.keys])
  simp only [doDecode, jsonUnmarshal, hfit, doIndices_eq order _ hwf]

theorem doDecode_object_overflow (order : MapOrder) (members : List (String × Json))
    (literal : String) (hfit : Json.rangeErrorAmong? members = some literal) :
    doDecode order (.valid (.object members)) =
      .error (.UnmarshalTypeError ("number " ++ literal)) := by
  simp only [doDecode, jsonUnmarshal, hfit]

theorem get?_map_entries {α β : Type} (f : String → α → β) (l : GoMap α) (k : String) :
    GoMap.get? (l.map fun entry => (entry.1, f entry.1 entry.2)) k =
      (GoMap.get? l k).map (f k) := by
  induction l with
  | nil => simp [GoMap.get?]
  | cons e rest ih =>
    by_cases h0 : e.1 = k
    · subst h0
      simp [GoMap.get?]
    · simp only [List.map_cons, GoMap.get?, h0, if_false]
      exact ih

theorem get?_perm {α : Type} (l l' : GoMap α) (hp : l.Perm l') (hwf : GoMap.WF l')
    (k : String) : GoMap.get? l k = GoMap.get? l' k := by
  have hwfl : GoMap.WF l := (List.Perm.nodup_iff (hp.map Prod.fst)).mpr hwf
  cases h : GoMap.get? l' k with
  | none =>
    rw [GoMap.get?_eq_none] at h ⊢
    exact fun hk => h (((hp.map Prod.fst).mem_iff).mp hk)
  | some v =>
    exact GoMap.get?_of_mem l k v hwfl ((hp.mem_iff).mpr (GoMap.mem_of_get? l' k v h))

theorem get?_decoded (order : MapOrder) (members : List (String × Json)) (i : String) :
    GoMap.get? (decodedIndices order (Json.toGoMap [] members)) i =
      (Json.member? members i).map fun v => freshEntry order i v.toGoVal := by
  have hwf : GoMap.WF (Json.toGoMap [] members) :=
    WF_toGoMap members [] (by simp [GoMap.WF, GoMap.keys])
  unfold decodedIndices
  rw [get?_map_entries (freshEntry order),
    get?_perm _ _ (order.perm GoVal none _) hwf, get?_toGoMap]
  cases Json.member? members i <;> simp [GoMap.get?]

theorem keys_decoded (order : MapOrder) (indexMap : GoMap GoVal) :
    (GoMap.keys (decodedIndices order indexMap)).Perm (GoMap.keys indexMap) := by
  have : GoMap.keys (decodedIndices order indexMap) =
      (order.range GoVal none indexMap).map Prod.fst := by
    simp [GoMap.keys, decodedIndices, Function.comp_def]
  rw [this]
  exact (order.perm GoVal none indexMap).map Prod.fst

theorem freshEntry_aliases (order : MapOrder) (i : String) (im am : List (String × Json))
    (ha : Json.member? im "aliases" = some (.object am)) :
    freshEntry order i (Json.toGoVal (.object im)) =
      { Aliases := .mk ((order.range GoVal (some i) (Json.toGoMap [] am)).map
          fun entry => { AliasName := entry.1 }) } := by
  simp [freshEntry, Json.toGoVal, get?_toGoMap, ha]

theorem freshEntry_empty (order : MapOrder) (i : String) (v : Json)
    (h : ∀ im am, v = .object im → Json.member? im "aliases" ≠ some (.object am)) :
    freshEntry order i v.toGoVal = { Aliases := .mk [] } := by
  cases v with
  | object im =>
    simp only [freshEntry, Json.toGoVal, get?_toGoMap]
    cases hm : Json.member? im "aliases" with
    | none => simp [GoMap.get?, Slice.make0]
    | some w =>
      cases w with
      | object am => exact absurd hm (h im am rfl)
      | number literal =>
        cases hfit : float64Fits literal <;> simp [Json.toGoVal, Slice.make0, hfit]
      | _ => simp [Json.toGoVal, Slice.make0]
  | number literal =>
    cases hfit : float64Fits literal <;> simp [freshEntry, Json.toGoVal, Slice.make0, hfit]
  | _ => rfl

theorem aliasNames_range (order : MapOrder) (i : String) (am : List (String × Json)) :
    (((order.range GoVal (some i) (Json.toGoMap [] am)).map
        fun entry => ({ AliasName := entry.1 } : aliasResult)).map fun x => x.AliasName).Perm
      (GoMap.keys (Json.toGoMap [] am)) := by
  have : ((order.range GoVal (some i) (Json.toGoMap [] am)).map
        fun entry => ({ AliasName := entry.1 } : aliasResult)).map (fun x => x.AliasName)
      = (order.range GoVal (some i) (Json.toGoMap [] am)).map Prod.fst := by
    simp [Function.comp_def]
  rw [this]
  exact (order.perm GoVal (some i) _).map Prod.fst

theorem keys_toGoMap_perm_dedup (members : List (String × Json)) :
    (GoMap.keys (Json.toGoMap [] members)).Perm (Json.names members).dedup := by
  have hwf : GoMap.WF (Json.toGoMap [] members) :=
    WF_toGoMap members [] (by simp [GoMap.WF, GoMap.keys])
  refine (List.perm_ext_iff_of_nodup hwf (List.nodup_dedup _)).mpr fun k => ?_
  rw [mem_keys_toGoMap, List.mem_dedup]
  simp [GoMap.keys]

theorem countP_le_one_of_nodup (aliasName : String) (l : List aliasResult)
    (h : (l.map fun x => x.AliasName).Nodup) :
    l.countP (fun x => x.AliasName = aliasName) ≤ 1 := by
  have hc := List.nodup_iff_count_le_one.mp h aliasName
  rw [List.count_eq_countP, List.countP_map] at hc
  have heq : l.countP (fun x => decide (x.AliasName = aliasName)) =
      l.countP ((fun x => x == aliasName) ∘ fun x => x.AliasName) := by
    congr 1
  rw [heq]
  exact hc

theorem nodup_IndicesByAlias (order : MapOrder) (ar : AliasesResult) (aliasName : String)
    (hwf : GoMap.WF ar.Indices)
    (hone : ∀ entry ∈ ar.Indices,
      entry.2.Aliases.toList.countP (fun x => x.AliasName = aliasName) ≤ 1) :
    (ar.IndicesByAlias order aliasName).toList.Nodup := by
  rw [IndicesByAlias_eq]
  simp only [Slice.toList]
  have hperm := order.perm indexResult none ar.Indices
  have hnd : ((order.range indexResult none ar.Indices).map Prod.fst).Nodup :=
    (List.Perm.nodup_iff (hperm.map Prod.fst)).mpr hwf
  rw [List.nodup_flatMap]
  constructor
  · intro entry hmem
    rw [List.nodup_replicate]
    exact hone entry ((hperm.mem_iff).mp hmem)
  · refine List.Pairwise.imp ?_ (List.pairwise_map.mp hnd)
    intro a b hab
    rw [Function.onFun, List.disjoint_left]
    intro x hx hx'
    rw [List.mem_replicate] at hx hx'
    exact hab (hx.2.symm.trans hx'.2)

theorem WF_decodedIndices (order : MapOrder) (members : List (String × Json)) :
    GoMap.WF (decodedIndices order (Json.toGoMap [] members)) :=
  (List.Perm.nodup_iff ((keys_decoded order _).trans (keys_toGoMap_perm_dedup members))).mpr
    (List.nodup_dedup _)

theorem mem_decodedIndices (order : MapOrder) (members : List (String × Json)) (i : String)
    (ir : indexResult) :
    (i, ir) ∈ decodedIndices order (Json.toGoMap [] members) ↔
      ∃ v, Json.member? members i = some v ∧ ir = freshEntry order i v.toGoVal := by
  constructor
  · intro hmem
    have hget := GoMap.get?_of_mem _ i ir (WF_decodedIndices order members) hmem
    rw [get?_decoded] at hget
    cases hm : Json.member? members i with
    | none => simp [hm] at hget
    | some v =>
      rw [hm, Option.map_some', Option.some.injEq] at hget
      exact ⟨v, rfl, hget.symm⟩
  · rintro ⟨v, hm, rfl⟩
    apply GoMap.mem_of_get?
    rw [get?_decoded, hm, Option.map_some']

theorem nodup_freshEntry_names (order : MapOrder) (i : String) (v : Json) :
    ((freshEntry order i v.toGoVal).Aliases.toList.map fun x => x.AliasName).Nodup := by
  by_cases hshape : ∃ im am, v = .object im ∧ Json.member? im "aliases" = some (.object am)
  · obtain ⟨im, am, rfl, ha⟩ := hshape
    rw [freshEntry_aliases order i im am ha]
    exact (List.Perm.nodup_iff
      ((aliasNames_range order i am).trans (keys_toGoMap_perm_dedup am))).mpr
      (List.nodup_dedup _)
  · rw [freshEntry_empty order i v fun im am hv ha => hshape ⟨im, am, hv, ha⟩]
    simp [Slice.toList]

theorem mem_freshEntry_names (order : MapOrder) (i a : String) (v : Json) :
    (∃ x ∈ (freshEntry order i v.toGoVal).Aliases.toList, x.AliasName = a) ↔
      ∃ im am, v = .object im ∧ Json.member? im "aliases" = some (.object am) ∧
        a ∈ Json.names am := by
  by_cases hshape : ∃ im am, v = .object im ∧ Json.member? im "aliases" = some (.object am)
  · obtain ⟨im, am, rfl, ha⟩ := hshape
    rw [freshEntry_aliases order i im am ha]
    have hperm := (aliasNames_range order i am).trans (keys_toGoMap_perm_dedup am)
    have hiff : a ∈ Json.names am ↔ _ := ((hperm.mem_iff).trans List.mem_dedup).symm
    constructor
    · rintro ⟨x, hx, rfl⟩
      exact ⟨im, am, rfl, ha, hiff.mpr (List.mem_map.mpr ⟨x, hx, rfl⟩)⟩
    · rintro ⟨im', am', hv, ha', hmem⟩
      cases hv
      rw [ha] at ha'
      cases ha'
      obtain ⟨x, hx, hxa⟩ := List.mem_map.mp (hiff.mp hmem)
      exact ⟨x, hx, hxa⟩
  · rw [freshEntry_empty order i v fun im am hv ha => hshape ⟨im, am, hv, ha⟩]
    constructor
    · rintro ⟨x, hx, -⟩
      simp [Slice.toList] at hx
    · rintro ⟨im, am, hv, ha, -⟩
      exact absurd ⟨im, am, hv, ha⟩ hshape

/-! ## The request path -/

/-- C1 fails as stated: on the builder made by `NewAliasesService`, to which no index name
was added, the url `Do` gives to `client.NewRequest` is `//_aliases`, not `/_aliases`. -/
theorem Do_target_without_indices_ne :
    NewAliasesService.indices.toList = [] ∧
    (NewAliasesService.Do (Deps.serving (.valid (.object []))) MapOrder.stored).target
      = "//_aliases" ∧
    (NewAliasesService.Do (Deps.serving (.valid (.object []))) MapOrder.stored).target
      ≠ "/_aliases" := by
  decide

/-- C1, as the code has it: for a builder with no index name, whatever the client and the
other settings, the url `Do` gives to `client.NewRequest` is `//_aliases`: the separator `/`,
the join of no names, and the suffix `/_aliases`. -/
theorem Do_target_without_indices (deps : Deps) (order : MapOrder) (s : AliasesService)
    (h : s.indices.toList = []) : (s.Do deps order).target = "//_aliases" := by
  rw [Do_target, doPath_eq, h]
  rfl

theorem Do_target_without_indices_witness :
    (NewAliasesService.Pretty true).indices.toList = [] ∧
    ((NewAliasesService.Pretty true).Do (Deps.serving (.valid .null)) MapOrder.backwards).target
      = "//_aliases" :=
  ⟨rfl, Do_target_without_indices _ _ _ rfl⟩

/-- C2: the url `Do` gives to `client.NewRequest` is `/`, then the index names of the
builder, each passed through `cleanPathString` on its own, joined by commas in the order they
were added, then `/_aliases`; so it ends with `/_aliases`. `Index` adds its name at the end
of the names, and `Indices` adds its names at the end in their order. -/
theorem Do_target_joined (deps : Deps) (order : MapOrder) (s : AliasesService) :
    (s.Do deps order).target =
      "/" ++ ",".intercalate (s.indices.toList.map deps.cleanPathString) ++ "/_aliases" ∧
    (∃ front, (s.Do deps order).target = front ++ "/_aliases") ∧
    (∀ indexName, (s.Index indexName).indices.toList = s.indices.toList ++ [indexName]) ∧
    (∀ indexNames, (s.Indices indexNames).indices.toList = s.indices.toList ++ indexNames) := by
  refine ⟨by rw [Do_target, doPath_eq], ⟨_, by rw [Do_target, doPath_eq]⟩, fun _ => rfl, ?_⟩
  intro indexNames
  cases indexNames with
  | nil => simp [AliasesService.Indices, Slice.appendAll]
  | cons n rest => rfl

/-- C3 does not hold of the code: `Do` creates the request from `urls` on line 69, before the
parameters are appended to `urls` on line 79, and `urls` is not read again. So the url given
to `client.NewRequest` is the path alone, the same with `Pretty(true)` as with
`Pretty(false)`, and so is the request that is sent; with `Pretty(true)` and no index name
that url is `//_aliases`, while the variable `urls` ends as `//_aliases?pretty=true`. -/
theorem Do_target_ignores_pretty (deps : Deps) (order : MapOrder) (s : AliasesService) :
    ((s.Pretty true).Do deps order).target = ((s.Pretty false).Do deps order).target ∧
    ((s.Pretty true).Do deps order).sent = ((s.Pretty false).Do deps order).sent ∧
    ((NewAliasesService.Pretty true).Do (Deps.serving (.valid (.object []))) MapOrder.stored).target
      = "//_aliases" ∧
    ((NewAliasesService.Pretty true).Do (Deps.serving (.valid (.object []))) MapOrder.stored).sent
      = some { method := "GET", url := "//_aliases" } ∧
    ((NewAliasesService.Pretty true).Do (Deps.serving (.valid (.object []))) MapOrder.stored).urls
      = "//_aliases?pretty=true" := by
  refine ⟨?_, ?_, by decide, by decide, by decide⟩
  · rw [Do_target, Do_target]
    rfl
  · rw [Do_sent, Do_sent]
    rfl

/-- C4: the value of `params.Encode()` in `Do`, computed once the request is created, is the
empty string when `pretty` is false and `pretty=true` when it is true; it is never
`pretty=false`. -/
theorem Do_query (deps : Deps) (order : MapOrder) (s : AliasesService) :
    (s.Do deps order).query =
      ((deps.NewRequest "GET" (doPath deps.cleanPathString s)).toOption.map
        fun _ => if s.pretty then "pretty=true" else "") ∧
    (s.Do deps order).query ≠ some "pretty=false" ∧
    (doParams s).Encode = (if s.pretty then "pretty=true" else "") := by
  have hq := Do_query_eq deps order s
  rw [doParams_encode] at hq
  refine ⟨hq, ?_, doParams_encode s⟩
  rw [hq]
  cases deps.NewRequest "GET" (doPath deps.cleanPathString s) <;> cases s.pretty <;>
    simp [Except.toOption]

/-! ## Decoding the body -/

/-- C5 fails as stated: the body `null` is JSON and its top-level value is not an object, yet
`Do` returns a result with no entries and no error. -/
theorem Do_null_body :
    (NewAliasesService.Do (Deps.serving (.valid .null)) MapOrder.stored).result
      = some { Indices := [] } ∧
    (NewAliasesService.Do (Deps.serving (.valid .null)) MapOrder.stored).err = none := by
  decide

/-- C5, as the code has it: when the body is JSON and its top-level value is an array, a
string, a number or a boolean, `Do` returns no result and the type error of
`json.Unmarshal`; when it is `null`, `Do` returns a result with no entries and no error. -/
theorem Do_top_level_not_object (deps : Deps) (order : MapOrder) (s : AliasesService)
    (v : Json) (h : deps.delivers s (.valid v)) (hobj : ∀ members, v ≠ .object members) :
    (v ≠ .null →
      (s.Do deps order).result = none ∧
      ∃ value, (s.Do deps order).err = some (.UnmarshalTypeError value)) ∧
    (v = .null →
      (s.Do deps order).result = some { Indices := [] } ∧ (s.Do deps order).err = none) := by
  obtain ⟨hres, herr⟩ := Do_of_delivers deps order s _ h
  rw [hres, herr]
  cases v with
  | object members => exact absurd rfl (hobj members)
  | null =>
    refine ⟨fun hn => absurd rfl hn, fun _ => ?_⟩
    simp [doDecode, jsonUnmarshal, doIndices, Except.toOption]
    have := order.perm GoVal none []
    simp [List.perm_nil.mp this]
  | _ => simp [doDecode, jsonUnmarshal, Except.toOption]

theorem Do_top_level_not_object_witness :
    (Deps.serving (.valid (.array [.number "1", .number "2", .number "3"]))).delivers
      NewAliasesService (.valid (.array [.number "1", .number "2", .number "3"])) ∧
    ((Json.array [.number "1", .number "2", .number "3"] ≠ .null →
      (NewAliasesService.Do
        (Deps.serving (.valid (.array [.number "1", .number "2", .number "3"])))
        MapOrder.stored).result = none ∧
      ∃ value, (NewAliasesService.Do
        (Deps.serving (.valid (.array [.number "1", .number "2", .number "3"])))
        MapOrder.stored).err = some (.UnmarshalTypeError value)) ∧
    (Json.array [.number "1", .number "2", .number "3"] = .null →
      (NewAliasesService.Do
        (Deps.serving (.valid (.array [.number "1", .number "2", .number "3"])))
        MapOrder.stored).result = some { Indices := [] } ∧
      (NewAliasesService.Do
        (Deps.serving (.valid (.array [.number "1", .number "2", .number "3"])))
        MapOrder.stored).err = none)) :=
  ⟨delivers_serving _ _,
    Do_top_level_not_object _ MapOrder.stored NewAliasesService _ (delivers_serving _ _)
      (fun _ hv => by cases hv)⟩

/-- C6 fails as stated: the body `{"idx":1e999}` is a JSON object, yet `Do` returns no
result and the type error that `json.Unmarshal` makes of a number outside `float64`. -/
theorem Do_overflow_body :
    (NewAliasesService.Do (Deps.serving (.valid (.object [("idx", .number "1e999")])))
      MapOrder.stored).result = none ∧
    (NewAliasesService.Do (Deps.serving (.valid (.object [("idx", .number "1e999")])))
      MapOrder.stored).err = some (.UnmarshalTypeError "number 1e999") := by
  decide!

/-- C6, as the code has it: when the body is a JSON object all of whose numbers fit
`float64`, `Do` returns a result and no error; the keys of `Indices` are pairwise distinct
and are exactly the names of the top-level members of the object, whatever their values; for
the body `{}` the result has no entries. When some number of the body does not fit
`float64`, `Do` returns no result and the type error of the first such number. -/
theorem Do_index_keys (deps : Deps) (order : MapOrder) (s : AliasesService)
    (members : List (String × Json)) (h : deps.delivers s (.valid (.object members))) :
    (Json.rangeErrorAmong? members = none →
      ∃ ar, (s.Do deps order).result = some ar ∧ (s.Do deps order).err = none ∧
        (∀ k, k ∈ GoMap.keys ar.Indices ↔ k ∈ Json.names members) ∧
        (GoMap.keys ar.Indices).Nodup ∧
        (GoMap.keys ar.Indices).length = (Json.names members).dedup.length ∧
        (members = [] → ar.Indices = [])) ∧
    (∀ literal, Json.rangeErrorAmong? members = some literal →
      (s.Do deps order).result = none ∧
      (s.Do deps order).err = some (.UnmarshalTypeError ("number " ++ literal))) := by
  obtain ⟨hres, herr⟩ := Do_of_delivers deps order s _ h
  constructor
  · intro hfit
    rw [doDecode_object order members hfit] at hres herr
    have hkeys := (keys_decoded order (Json.toGoMap [] members)).trans
      (keys_toGoMap_perm_dedup members)
    refine ⟨_, hres, herr, fun k => ?_, ?_, hkeys.length_eq, ?_⟩
    · rw [hkeys.mem_iff, List.mem_dedup]
    · exact (List.Perm.nodup_iff hkeys).mpr (List.nodup_dedup _)
    · intro hm
      subst hm
      have := order.perm GoVal none []
      simp [decodedIndices, Json.toGoMap, List.perm_nil.mp this]
  · intro literal hfit
    rw [doDecode_object_overflow order members literal hfit] at hres herr
    exact ⟨hres, herr⟩

theorem Do_index_keys_witness :
    (Deps.serving (.valid (.object [("logs-2024", .object [("aliases", .object [])]),
        ("logs-2023", .number "1.5e3")]))).delivers NewAliasesService
      (.valid (.object [("logs-2024", .object [("aliases", .object [])]),
        ("logs-2023", .number "1.5e3")])) ∧
    Json.rangeErrorAmong? [("logs-2024", .object [("aliases", .object [])]),
        ("logs-2023", .number "1.5e3")] = none ∧
    ∃ ar, (NewAliasesService.Do
        (Deps.serving (.valid (.object [("logs-2024", .object [("aliases", .object [])]),
          ("logs-2023", .number "1.5e3")]))) MapOrder.backwards).result = some ar ∧
      (NewAliasesService.Do
        (Deps.serving (.valid (.object [("logs-2024", .object [("aliases", .object [])]),
          ("logs-2023", .number "1.5e3")]))) MapOrder.backwards).err = none ∧
      (∀ k, k ∈ GoMap.keys ar.Indices ↔
        k ∈ Json.names [("logs-2024", .object [("aliases", .object [])]),
          ("logs-2023", .number "1.5e3")]) ∧
      (GoMap.keys ar.Indices).Nodup ∧
      (GoMap.keys ar.Indices).length =
        (Json.names [("logs-2024", .object [("aliases", .object [])]),
          ("logs-2023", .number "1.5e3")]).dedup.length ∧
      (([("logs-2024", .object [("aliases", .object [])]),
          ("logs-2023", .number "1.5e3")] : List (String × Json)) = [] → ar.Indices = []) :=
  ⟨delivers_serving _ _, by decide!,
    (Do_index_keys _ MapOrder.backwards NewAliasesService _ (delivers_serving _ _)).1
      (by decide!)⟩

/-- C7 fails as stated: in the body `{"idx":{"aliases":{"a":{"x":1e999}}}}` the value under
`idx` is an object whose `aliases` value is an object, yet there is no decoded entry: `Do`
returns no result and the type error of the number stored under the alias `a`. -/
theorem Do_overflow_under_alias :
    Json.member? [("idx", .object [("aliases",
        .object [("a", .object [("x", .number "1e999")])])])] "idx"
      = some (.object [("aliases", .object [("a", .object [("x", .number "1e999")])])]) ∧
    Json.member? [("aliases", .object [("a", .object [("x", .number "1e999")])])] "aliases"
      = some (.object [("a", .object [("x", .number "1e999")])]) ∧
    (NewAliasesService.Do (Deps.serving (.valid (.object [("idx", .object [("aliases",
        .object [("a", .object [("x", .number "1e999")])])])])))
      MapOrder.stored).result = none ∧
    (NewAliasesService.Do (Deps.serving (.valid (.object [("idx", .object [("aliases",
        .object [("a", .object [("x", .number "1e999")])])])])))
      MapOrder.stored).err = some (.UnmarshalTypeError "number 1e999") :=
  ⟨rfl, rfl, by decide!, by decide!⟩

/-- C7, as the code has it: when the body is a JSON object all of whose numbers fit
`float64`, the value kept under the name `i` is an object, and the value kept there under
`aliases` is an object, the entry of `i` in the result has an alias list whose names are
pairwise distinct and are exactly the names written in that `aliases` object, whatever values
stand under them: the list of alias names is a rearrangement of those names with each
repeated name counted once, and has as many elements. -/
theorem Do_alias_names (deps : Deps) (order : MapOrder) (s : AliasesService)
    (members : List (String × Json)) (i : String) (im am : List (String × Json))
    (h : deps.delivers s (.valid (.object members)))
    (hfit : Json.rangeErrorAmong? members = none)
    (hi : Json.member? members i = some (.object im))
    (ha : Json.member? im "aliases" = some (.object am)) :
    ∃ ar entry, (s.Do deps order).result = some ar ∧ GoMap.get? ar.Indices i = some entry ∧
      (entry.Aliases.toList.map fun x => x.AliasName).Perm (Json.names am).dedup ∧
      (entry.Aliases.toList.map fun x => x.AliasName).Nodup ∧
      (∀ a, a ∈ (entry.Aliases.toList.map fun x => x.AliasName) ↔ a ∈ Json.names am) ∧
      entry.Aliases.len = (Json.names am).dedup.length := by
  obtain ⟨hres, -⟩ := Do_of_delivers deps order s _ h
  rw [doDecode_object order members hfit] at hres
  have hperm := (aliasNames_range order i am).trans (keys_toGoMap_perm_dedup am)
  refine ⟨_, freshEntry order i (Json.toGoVal (.object im)), hres, ?_, ?_⟩
  · rw [get?_decoded, hi, Option.map_some']
  · rw [freshEntry_aliases order i im am ha]
    refine ⟨hperm, ?_, fun a => ?_, ?_⟩
    · exact (List.Perm.nodup_iff hperm).mpr (List.nodup_dedup _)
    · exact (hperm.mem_iff).trans List.mem_dedup
    · rw [← hperm.length_eq]
      simp [Slice.len, Slice.toList]

theorem Do_alias_names_witness :
    (Deps.serving (.valid (.object [("idx", .object [("aliases",
        .object [("a", .object [("routing", .number "12")]), ("b", .null)])])]))).delivers
      NewAliasesService (.valid (.object [("idx", .object [("aliases",
        .object [("a", .object [("routing", .number "12")]), ("b", .null)])])])) ∧
    Json.rangeErrorAmong? [("idx", .object [("aliases",
        .object [("a", .object [("routing", .number "12")]), ("b", .null)])])] = none ∧
    ∃ ar entry,
      (NewAliasesService.Do (Deps.serving (.valid (.object [("idx", .object [("aliases",
        .object [("a", .object [("routing", .number "12")]), ("b", .null)])])])))
        MapOrder.backwards).result = some ar ∧
      GoMap.get? ar.Indices "idx" = some entry ∧
      (entry.Aliases.toList.map fun x => x.AliasName).Perm
        (Json.names [("a", .object [("routing", .number "12")]), ("b", .null)]).dedup ∧
      (entry.Aliases.toList.map fun x => x.AliasName).Nodup ∧
      (∀ a, a ∈ (entry.Aliases.toList.map fun x => x.AliasName) ↔
        a ∈ Json.names [("a", .object [("routing", .number "12")]), ("b", .null)]) ∧
      entry.Aliases.len =
        (Json.names [("a", .object [("routing", .number "12")]), ("b", .null)]).dedup.length :=
  ⟨delivers_serving _ _, by decide!,
    Do_alias_names _ MapOrder.backwards NewAliasesService
      [("idx", .object [("aliases",
        .object [("a", .object [("routing", .number "12")]), ("b", .null)])])]
      "idx" [("aliases", .object [("a", .object [("routing", .number "12")]), ("b", .null)])]
      [("a", .object [("routing", .number "12")]), ("b", .null)] (delivers_serving _ _)
      (by decide!) rfl rfl⟩

/-- C8 fails as stated: in the body `{"idx":{"aliases":1e999}}` the value under `idx` has an
`aliases` value that is not an object, yet decoding does not succeed: `Do` returns no result
and the type error of that number. -/
theorem Do_overflow_aliases_value :
    Json.member? [("idx", .object [("aliases", .number "1e999")])] "idx"
      = some (.object [("aliases", .number "1e999")]) ∧
    Json.member? [("aliases", .number "1e999")] "aliases" = some (.number "1e999") ∧
    (NewAliasesService.Do
      (Deps.serving (.valid (.object [("idx", .object [("aliases", .number "1e999")])])))
      MapOrder.stored).result = none ∧
    (NewAliasesService.Do
      (Deps.serving (.valid (.object [("idx", .object [("aliases", .number "1e999")])])))
      MapOrder.stored).err = some (.UnmarshalTypeError "number 1e999") :=
  ⟨rfl, rfl, by decide!, by decide!⟩

/-- C8, as the code has it: when the body is a JSON object all of whose numbers fit
`float64`, and the value kept under the name `i` is not an object, or is an object with no
`aliases` member, or one whose `aliases` value is not an object, `Do` still returns a result
and no error, and the entry of `i` has the empty alias list made by `make`: not nil, of
length zero, and `HasAlias` is false on it for every name. -/
theorem Do_records_empty_aliases (deps : Deps) (order : MapOrder) (s : AliasesService)
    (members : List (String × Json)) (i : String) (v : Json)
    (h : deps.delivers s (.valid (.object members)))
    (hfit : Json.rangeErrorAmong? members = none)
    (hi : Json.member? members i = some v)
    (hshape : ∀ im am, v = .object im → Json.member? im "aliases" ≠ some (.object am)) :
    ∃ ar entry, (s.Do deps order).result = some ar ∧ (s.Do deps order).err = none ∧
      GoMap.get? ar.Indices i = some entry ∧
      entry.Aliases = Slice.make0 ∧ entry.Aliases.isNonNil = true ∧ entry.Aliases.len = 0 ∧
      ∀ aliasName, entry.HasAlias aliasName = false := by
  obtain ⟨hres, herr⟩ := Do_of_delivers deps order s _ h
  rw [doDecode_object order members hfit] at hres herr
  refine ⟨_, { Aliases := .mk [] }, hres, herr, ?_, rfl, rfl, rfl, fun _ => rfl⟩
  rw [get?_decoded, hi, Option.map_some', freshEntry_empty order i v hshape]

theorem Do_records_empty_aliases_witness :
    (Deps.serving (.valid (.object [("idx", .object []), ("n", .number "7")]))).delivers
      NewAliasesService (.valid (.object [("idx", .object []), ("n", .number "7")])) ∧
    Json.rangeErrorAmong? [("idx", .object []), ("n", .number "7")] = none ∧
    Json.member? [("idx", .object []), ("n", .number "7")] "idx" = some (.object []) ∧
    ∃ ar entry,
      (NewAliasesService.Do
        (Deps.serving (.valid (.object [("idx", .object []), ("n", .number "7")])))
        MapOrder.stored).result = some ar ∧
      (NewAliasesService.Do
        (Deps.serving (.valid (.object [("idx", .object []), ("n", .number "7")])))
        MapOrder.stored).err = none ∧
      GoMap.get? ar.Indices "idx" = some entry ∧
      entry.Aliases = Slice.make0 ∧ entry.Aliases.isNonNil = true ∧ entry.Aliases.len = 0 ∧
      ∀ aliasName, entry.HasAlias aliasName = false :=
  ⟨delivers_serving _ _, by decide!, rfl,
    Do_records_empty_aliases _ MapOrder.stored NewAliasesService
      [("idx", .object []), ("n", .number "7")] "idx"
      (.object []) (delivers_serving _ _) (by decide!) rfl
      (fun im am hv => by
        cases hv
        simp [Json.member?])⟩

/-! ## The queries, on a decoded result and on any result -/

/-- C9 fails as stated: in the body `{"idx":{"aliases":{"a":{},"b":1e999}}}` the value
under `idx` is an object whose `aliases` value is an object with a member named `a`, yet
there is no decoded result to hold `idx`: `Do` returns no result and the type error of the
number. -/
theorem Do_overflow_no_lookup :
    Json.member? [("idx", .object [("aliases",
        .object [("a", .object []), ("b", .number "1e999")])])] "idx"
      = some (.object [("aliases", .object [("a", .object []), ("b", .number "1e999")])]) ∧
    Json.member? [("aliases", .object [("a", .object []), ("b", .number "1e999")])] "aliases"
      = some (.object [("a", .object []), ("b", .number "1e999")]) ∧
    "a" ∈ Json.names [("a", .object []), ("b", .number "1e999")] ∧
    (NewAliasesService.Do (Deps.serving (.valid (.object [("idx", .object [("aliases",
        .object [("a", .object []), ("b", .number "1e999")])])])))
      MapOrder.stored).result = none ∧
    (NewAliasesService.Do (Deps.serving (.valid (.object [("idx", .object [("aliases",
        .object [("a", .object []), ("b", .number "1e999")])])])))
      MapOrder.stored).err = some (.UnmarshalTypeError "number 1e999") :=
  ⟨rfl, rfl, by decide, by decide!, by decide!⟩

/-- C9, as the code has it: when the body is a JSON object all of whose numbers fit
`float64`, `Do` returns a result on which, for every alias name `a` and whatever the order of
the visits, `IndicesByAlias(a)` holds the index name `i` exactly when the value kept under
`i` in the body is an object whose `aliases` value is an object with a member named `a`; no
index name is in it twice; and it is the empty slice when no index has the alias. -/
theorem Do_IndicesByAlias (deps : Deps) (order order' : MapOrder) (s : AliasesService)
    (members : List (String × Json)) (a : String)
    (h : deps.delivers s (.valid (.object members)))
    (hfit : Json.rangeErrorAmong? members = none) :
    ∃ ar, (s.Do deps order).result = some ar ∧ (s.Do deps order).err = none ∧
      (∀ i, i ∈ (ar.IndicesByAlias order' a).toList ↔
        ∃ im am, Json.member? members i = some (.object im) ∧
          Json.member? im "aliases" = some (.object am) ∧ a ∈ Json.names am) ∧
      (ar.IndicesByAlias order' a).toList.Nodup ∧
      ((¬ ∃ i im am, Json.member? members i = some (.object im) ∧
          Json.member? im "aliases" = some (.object am) ∧ a ∈ Json.names am) →
        ar.IndicesByAlias order' a = Slice.make0) := by
  obtain ⟨hres, herr⟩ := Do_of_delivers deps order s _ h
  rw [doDecode_object order members hfit] at hres herr
  have hiff : ∀ i, i ∈ (AliasesResult.IndicesByAlias order'
        { Indices := decodedIndices order (Json.toGoMap [] members) } a).toList ↔
      ∃ im am, Json.member? members i = some (.object im) ∧
        Json.member? im "aliases" = some (.object am) ∧ a ∈ Json.names am := by
    intro i
    rw [mem_IndicesByAlias]
    constructor
    · rintro ⟨ir, hmem, hx⟩
      obtain ⟨v, hm, rfl⟩ := (mem_decodedIndices order members i ir).mp hmem
      obtain ⟨im, am, rfl, ha, hin⟩ := (mem_freshEntry_names order i a v).mp hx
      exact ⟨im, am, hm, ha, hin⟩
    · rintro ⟨im, am, hm, ha, hin⟩
      exact ⟨_, (mem_decodedIndices order members i _).mpr ⟨_, hm, rfl⟩,
        (mem_freshEntry_names order i a _).mpr ⟨im, am, rfl, ha, hin⟩⟩
  refine ⟨_, hres, herr, hiff, ?_, fun hnone => ?_⟩
  · apply nodup_IndicesByAlias order' _ a (WF_decodedIndices order members)
    rintro ⟨k, ir⟩ hmem
    obtain ⟨v, -, rfl⟩ := (mem_decodedIndices order members k ir).mp hmem
    exact countP_le_one_of_nodup a _ (nodup_freshEntry_names order k v)
  · have hall : ∀ i, i ∉ (AliasesResult.IndicesByAlias order'
        { Indices := decodedIndices order (Json.toGoMap [] members) } a).toList :=
      fun i hi => hnone ⟨i, (hiff i).mp hi⟩
    rw [IndicesByAlias_eq] at hall ⊢
    exact congrArg Slice.mk (List.eq_nil_iff_forall_not_mem.mpr hall)

theorem Do_IndicesByAlias_witness :
    (Deps.serving (.valid docIdxAB)).delivers NewAliasesService (.valid (.object
      [("idx", .object [("aliases", .object [("a", .object []), ("b", .object [])])])])) ∧
    Json.rangeErrorAmong?
      [("idx", .object [("aliases", .object [("a", .object []), ("b", .object [])])])]
      = none ∧
    (∃ ar,
      (NewAliasesService.Do (Deps.serving (.valid docIdxAB)) MapOrder.backwards).result
        = some ar ∧
      (NewAliasesService.Do (Deps.serving (.valid docIdxAB)) MapOrder.backwards).err = none ∧
      (∀ i, i ∈ (ar.IndicesByAlias MapOrder.stored "a").toList ↔
        ∃ im am, Json.member?
            [("idx", .object [("aliases", .object [("a", .object []), ("b", .object [])])])] i
            = some (.object im) ∧
          Json.member? im "aliases" = some (.object am) ∧ "a" ∈ Json.names am) ∧
      (ar.IndicesByAlias MapOrder.stored "a").toList.Nodup ∧
      ((¬ ∃ i im am, Json.member?
            [("idx", .object [("aliases", .object [("a", .object []), ("b", .object [])])])] i
            = some (.object im) ∧
          Json.member? im "aliases" = some (.object am) ∧ "a" ∈ Json.names am) →
        ar.IndicesByAlias MapOrder.stored "a" = Slice.make0)) ∧
    ((NewAliasesService.Do (Deps.serving (.valid docIdxAB)) MapOrder.backwards).result.map
      fun ar => (ar.IndicesByAlias MapOrder.stored "a",
        ar.IndicesByAlias MapOrder.stored "missing")) = some (.mk ["idx"], .mk []) :=
  ⟨delivers_serving _ _, rfl,
    Do_IndicesByAlias (Deps.serving (.valid docIdxAB)) MapOrder.backwards MapOrder.stored
      NewAliasesService
      [("idx", .object [("aliases", .object [("a", .object []), ("b", .object [])])])] "a"
      (delivers_serving _ _) rfl,
    by decide⟩

/-- C10: on every result whose `Indices` is a Go map (no key twice) and for every alias name
`a`, whatever the order of the visit, the index name `i` is in `IndicesByAlias(a)` exactly
when `Indices` has an entry under `i` whose alias list holds an entry with `AliasName` equal
to `a` as a string; the slice returned is never nil, and it is the empty slice of `make` when
no index matches. The method is a total function: it has no error to return. -/
theorem IndicesByAlias_spec (order : MapOrder) (ar : AliasesResult) (a : String)
    (hwf : GoMap.WF ar.Indices) :
    (∀ i, i ∈ (ar.IndicesByAlias order a).toList ↔
      ∃ ir, GoMap.get? ar.Indices i = some ir ∧ ∃ x ∈ ir.Aliases.toList, x.AliasName = a) ∧
    (ar.IndicesByAlias order a).isNonNil = true ∧
    ((¬ ∃ i ir, GoMap.get? ar.Indices i = some ir ∧ ∃ x ∈ ir.Aliases.toList, x.AliasName = a) →
      ar.IndicesByAlias order a = Slice.make0) := by
  have hiff : ∀ i, i ∈ (ar.IndicesByAlias order a).toList ↔
      ∃ ir, GoMap.get? ar.Indices i = some ir ∧
        ∃ x ∈ ir.Aliases.toList, x.AliasName = a := by
    intro i
    rw [mem_IndicesByAlias]
    constructor
    · rintro ⟨ir, hmem, hx⟩
      exact ⟨ir, GoMap.get?_of_mem _ i ir hwf hmem, hx⟩
    · rintro ⟨ir, hget, hx⟩
      exact ⟨ir, GoMap.mem_of_get? _ i ir hget, hx⟩
  refine ⟨hiff, ?_, fun hnone => ?_⟩
  · rw [IndicesByAlias_eq]
    rfl
  · have hall : ∀ i, i ∉ (ar.IndicesByAlias order a).toList :=
      fun i hi => hnone ⟨i, (hiff i).mp hi⟩
    rw [IndicesByAlias_eq] at hall ⊢
    exact congrArg Slice.mk (List.eq_nil_iff_forall_not_mem.mpr hall)

theorem IndicesByAlias_spec_witness :
    GoMap.WF (AliasesResult.Indices
      { Indices := [("logs-2024", { Aliases := .mk [{ AliasName := "current" },
          { AliasName := "Current" }] }), ("logs-2023", { Aliases := .nil }),
        ("logs-2022", { Aliases := .mk [{ AliasName := "Current" }] })] }) ∧
    ((∀ i, i ∈ (AliasesResult.IndicesByAlias MapOrder.backwards
        { Indices := [("logs-2024", { Aliases := .mk [{ AliasName := "current" },
            { AliasName := "Current" }] }), ("logs-2023", { Aliases := .nil }),
          ("logs-2022", { Aliases := .mk [{ AliasName := "Current" }] })] } "Current").toList ↔
      ∃ ir, GoMap.get? (AliasesResult.Indices
        { Indices := [("logs-2024", { Aliases := .mk [{ AliasName := "current" },
            { AliasName := "Current" }] }), ("logs-2023", { Aliases := .nil }),
          ("logs-2022", { Aliases := .mk [{ AliasName := "Current" }] })] }) i = some ir ∧
        ∃ x ∈ ir.Aliases.toList, x.AliasName = "Current") ∧
    (AliasesResult.IndicesByAlias MapOrder.backwards
        { Indices := [("logs-2024", { Aliases := .mk [{ AliasName := "current" },
            { AliasName := "Current" }] }), ("logs-2023", { Aliases := .nil }),
          ("logs-2022", { Aliases := .mk [{ AliasName := "Current" }] })] }
        "Current").isNonNil = true ∧
    ((¬ ∃ i ir, GoMap.get? (AliasesResult.Indices
        { Indices := [("logs-2024", { Aliases := .mk [{ AliasName := "current" },
            { AliasName := "Current" }] }), ("logs-2023", { Aliases := .nil }),
          ("logs-2022", { Aliases := .mk [{ AliasName := "Current" }] })] }) i = some ir ∧
        ∃ x ∈ ir.Aliases.toList, x.AliasName = "Current") →
      AliasesResult.IndicesByAlias MapOrder.backwards
        { Indices := [("logs-2024", { Aliases := .mk [{ AliasName := "current" },
            { AliasName := "Current" }] }), ("logs-2023", { Aliases := .nil }),
          ("logs-2022", { Aliases := .mk [{ AliasName := "Current" }] })] } "Current"
        = Slice.make0)) ∧
    AliasesResult.IndicesByAlias MapOrder.backwards
        { Indices := [("logs-2024", { Aliases := .mk [{ AliasName := "current" },
            { AliasName := "Current" }] }), ("logs-2023", { Aliases := .nil }),
          ("logs-2022", { Aliases := .mk [{ AliasName := "Current" }] })] } "Current"
      = .mk ["logs-2022", "logs-2024"] :=
  ⟨by decide,
    IndicesByAlias_spec MapOrder.backwards _ "Current" (by decide),
    by decide⟩

/-- The number of times an index name is in the list that `IndicesByAlias` builds from the
visited entries, when no key is visited twice. -/
theorem count_flatMap_replicate {β : Type} (f : β → Nat) (i : String) (l : GoMap β)
    (h : GoMap.WF l) :
    (l.flatMap fun entry => List.replicate (f entry.2) entry.1).count i =
      ((GoMap.get? l i).map f).getD 0 := by
  induction l with
  | nil => simp [GoMap.get?]
  | cons e rest ih =>
    obtain ⟨k, v⟩ := e
    have h' : k ∉ GoMap.keys rest ∧ GoMap.WF rest := by simpa [GoMap.WF, GoMap.keys] using h
    rw [List.flatMap_cons, List.count_append, List.count_replicate, ih h'.2]
    by_cases hk : k = i
    · subst hk
      have hnone : GoMap.get? rest k = none := (GoMap.get?_eq_none rest k).mpr h'.1
      simp [GoMap.get?, hnone]
    · simp [GoMap.get?, hk]

theorem count_IndicesByAlias (order : MapOrder) (ar : AliasesResult) (a i : String)
    (hwf : GoMap.WF ar.Indices) :
    (ar.IndicesByAlias order a).toList.count i =
      ((GoMap.get? ar.Indices i).map fun ir =>
        ir.Aliases.toList.countP fun x => x.AliasName = a).getD 0 := by
  have hperm := order.perm indexResult none ar.Indices
  have hwf' : GoMap.WF (order.range indexResult none ar.Indices) :=
    (List.Perm.nodup_iff (hperm.map Prod.fst)).mpr hwf
  rw [IndicesByAlias_eq]
  refine (count_flatMap_replicate
    (fun ir : indexResult => ir.Aliases.toList.countP fun x => x.AliasName = a) i _ hwf').trans ?_
  rw [get?_perm _ _ hperm hwf]

/-- C11 fails as stated: on the result whose only index `idx` has the alias list `a`, `a`,
`IndicesByAlias("a")` is `idx`, `idx`: the inner loop appends the index name once for every
entry of the alias list that matches. -/
theorem IndicesByAlias_repeats :
    AliasesResult.IndicesByAlias MapOrder.stored
      { Indices := [("idx", { Aliases := .mk [{ AliasName := "a" }, { AliasName := "a" }] })] }
      "a" = .mk ["idx", "idx"] ∧
    ¬ (AliasesResult.IndicesByAlias MapOrder.stored
      { Indices := [("idx", { Aliases := .mk [{ AliasName := "a" }, { AliasName := "a" }] })] }
      "a").toList.Nodup := by
  decide

/-- C11, as the code has it: on a result whose `Indices` is a Go map, `IndicesByAlias(a)`
holds no index name more than once exactly when no alias list of the result holds the name
`a` more than once, as is the case in every result made by the decoder. -/
theorem IndicesByAlias_nodup_iff (order : MapOrder) (ar : AliasesResult) (a : String)
    (hwf : GoMap.WF ar.Indices) :
    (ar.IndicesByAlias order a).toList.Nodup ↔
      ∀ i ir, GoMap.get? ar.Indices i = some ir →
        ir.Aliases.toList.countP (fun x => x.AliasName = a) ≤ 1 := by
  rw [List.nodup_iff_count_le_one]
  constructor
  · intro hcount i ir hget
    have := hcount i
    rwa [count_IndicesByAlias order ar a i hwf, hget] at this
  · intro hone i
    rw [count_IndicesByAlias order ar a i hwf]
    cases hget : GoMap.get? ar.Indices i with
    | none => simp
    | some ir => simpa using hone i ir hget

theorem IndicesByAlias_nodup_iff_witness :
    GoMap.WF (AliasesResult.Indices
      { Indices := [("logs-2024", { Aliases := .mk [{ AliasName := "current" },
          { AliasName := "all" }] }),
        ("logs-2023", { Aliases := .mk [{ AliasName := "all" }] })] }) ∧
    ((AliasesResult.IndicesByAlias MapOrder.backwards
        { Indices := [("logs-2024", { Aliases := .mk [{ AliasName := "current" },
            { AliasName := "all" }] }),
          ("logs-2023", { Aliases := .mk [{ AliasName := "all" }] })] } "all").toList.Nodup ↔
      ∀ i ir, GoMap.get? (AliasesResult.Indices
          { Indices := [("logs-2024", { Aliases := .mk [{ AliasName := "current" },
              { AliasName := "all" }] }),
            ("logs-2023", { Aliases := .mk [{ AliasName := "all" }] })] }) i = some ir →
        ir.Aliases.toList.countP (fun x => x.AliasName = "all") ≤ 1) ∧
    (AliasesResult.IndicesByAlias MapOrder.backwards
        { Indices := [("logs-2024", { Aliases := .mk [{ AliasName := "current" },
            { AliasName := "all" }] }),
          ("logs-2023", { Aliases := .mk [{ AliasName := "all" }] })] } "all").toList.Nodup :=
  ⟨by decide, IndicesByAlias_nodup_iff MapOrder.backwards _ "all" (by decide), by decide⟩

/-- C12: `HasAlias(a)` is true exactly when some entry of the alias list has `AliasName`
equal to `a` as a string; so it is false for every name on the nil list and on the empty
list, and a name that differs from an alias only in the case of a letter is not found. -/
theorem HasAlias_iff (ir : indexResult) (a : String) :
    (ir.HasAlias a = true ↔ ∃ x ∈ ir.Aliases.toList, x.AliasName = a) ∧
    indexResult.HasAlias { Aliases := Slice.make0 } a = false ∧
    indexResult.HasAlias { Aliases := Slice.nil } a = false ∧
    indexResult.HasAlias { Aliases := .mk [{ AliasName := "logs" }] } "Logs" = false ∧
    indexResult.HasAlias { Aliases := .mk [{ AliasName := "logs" }] } "logs" = true :=
  ⟨hasAliasFrom_iff a ir.Aliases.toList, rfl, rfl, by decide, by decide⟩

/-! ## The builder -/

theorem foldl_Index (names : List String) (s : AliasesService) (n : String) :
    ((n :: names).foldl AliasesService.Index s) =
      { s with indices := .mk (s.indices.toList ++ n :: names) } := by
  induction names generalizing s n with
  | nil => rfl
  | cons m rest ih =>
    rw [List.foldl_cons, ih]
    simp [AliasesService.Index, Slice.append, Slice.toList]

/-- C13: `Indices(names...)` leaves the builder as calling `Index` on every name in order
does: the index names become the old ones followed by `names` as given, repeated and empty
names included, and `pretty` and `debug` keep their values; the builder of
`NewAliasesService` has no index name. -/
theorem Indices_eq_foldl_Index (s : AliasesService) (names : List String) :
    s.Indices names = names.foldl AliasesService.Index s ∧
    (s.Indices names).indices.toList = s.indices.toList ++ names ∧
    (s.Indices names).pretty = s.pretty ∧ (s.Indices names).debug = s.debug ∧
    NewAliasesService.indices.toList = [] ∧
    (NewAliasesService.Indices ["b", "", "a", "b"]).indices.toList = ["b", "", "a", "b"] := by
  refine ⟨?_, ?_, rfl, rfl, rfl, rfl⟩
  · cases names with
    | nil => rfl
    | cons n rest => rw [foldl_Index]; rfl
  · cases names with
    | nil => simp [AliasesService.Indices, Slice.appendAll]
    | cons n rest => rfl

/-! ## The runs of `Do` -/

/-- A run of `Do` either gets a body from the transport, or stops before the decoder with an
error that does not depend on the order of the visits. -/
theorem Do_early (deps : Deps) (s : AliasesService) :
    (∃ body, deps.delivers s body) ∨
    ∃ e, ∀ order, (s.Do deps order).result = none ∧ (s.Do deps order).err = some e := by
  cases h1 : deps.NewRequest "GET" (doPath deps.cleanPathString s) with
  | error e =>
    refine Or.inr ⟨e, fun order => ?_⟩
    simp [AliasesService.Do, h1]
  | ok req =>
    cases h2 : deps.clientDo req with
    | error e =>
      refine Or.inr ⟨e, fun order => ?_⟩
      cases hd : s.debug <;> simp [AliasesService.Do, h1, h2, hd]
    | ok res =>
      cases h3 : deps.checkResponse res with
      | some e =>
        refine Or.inr ⟨e, fun order => ?_⟩
        cases hd : s.debug <;> simp [AliasesService.Do, h1, h2, h3, hd]
      | none =>
        cases h4 : (ioutilReadAll (resAfterDebug deps s res).Body).1 with
        | error e =>
          refine Or.inr ⟨e, fun order => ?_⟩
          cases hd : s.debug <;> simp [AliasesService.Do, h1, h2, h3, h4, hd]
        | ok body => exact Or.inl ⟨body, req, res, h1, h2, h3, h4⟩

theorem Do_closed_iff (deps : Deps) (order : MapOrder) (s : AliasesService) :
    (s.Do deps order).closed = true ↔
      ∃ req res, deps.NewRequest "GET" (doPath deps.cleanPathString s) = .ok req ∧
        deps.clientDo req = .ok res ∧ deps.checkResponse res = none := by
  cases h1 : deps.NewRequest "GET" (doPath deps.cleanPathString s) with
  | error e => simp [AliasesService.Do, h1]
  | ok req =>
    cases h2 : deps.clientDo req with
    | error e => cases hd : s.debug <;> simp [AliasesService.Do, h1, h2, hd]
    | ok res =>
      cases h3 : deps.checkResponse res with
      | some e => cases hd : s.debug <;> simp [AliasesService.Do, h1, h2, h3, hd]
      | none =>
        cases h4 : (ioutilReadAll (resAfterDebug deps s res).Body).1 with
        | error e => cases hd : s.debug <;> simp [AliasesService.Do, h1, h2, h3, h4, hd]
        | ok body =>
          cases h5 : doDecode order body <;> cases hd : s.debug <;>
            simp [AliasesService.Do, h1, h2, h3, h4, h5, hd]

/-- C14: when the bytes of the body are not JSON, `Do` returns no result and the syntax error
of `json.Unmarshal`, which is an error of another kind than the type error returned for JSON
that is not an object. -/
theorem Do_invalid_body (deps : Deps) (order : MapOrder) (s : AliasesService) (msg : String)
    (h : deps.delivers s (.invalid msg)) :
    (s.Do deps order).result = none ∧
    (s.Do deps order).err = some (.SyntaxError msg) ∧
    ∀ value, (s.Do deps order).err ≠ some (.UnmarshalTypeError value) := by
  obtain ⟨hres, herr⟩ := Do_of_delivers deps order s _ h
  have hd : doDecode order (.invalid msg) = .error (.SyntaxError msg) := rfl
  rw [hd] at hres herr
  refine ⟨hres, herr, fun value hv => ?_⟩
  rw [herr] at hv
  cases hv

theorem Do_invalid_body_witness :
    (Deps.serving (.invalid "invalid character 'o' in literal null (expecting 'u')")).delivers
      NewAliasesService (.invalid "invalid character 'o' in literal null (expecting 'u')") ∧
    (NewAliasesService.Do
      (Deps.serving (.invalid "invalid character 'o' in literal null (expecting 'u')"))
      MapOrder.stored).result = none ∧
    (NewAliasesService.Do
      (Deps.serving (.invalid "invalid character 'o' in literal null (expecting 'u')"))
      MapOrder.stored).err
      = some (.SyntaxError "invalid character 'o' in literal null (expecting 'u')") ∧
    ∀ value, (NewAliasesService.Do
      (Deps.serving (.invalid "invalid character 'o' in literal null (expecting 'u')"))
      MapOrder.stored).err ≠ some (.UnmarshalTypeError value) :=
  ⟨delivers_serving _ _,
    Do_invalid_body _ MapOrder.stored NewAliasesService _ (delivers_serving _ _)⟩

/-- C15: a run of `Do` returns either a result and no error, or no result and an error; and
when `NewRequest`, the HTTP client, `checkResponse` or the reading of the body on line 112
fails with `e`, the run returns no result and `e` itself. -/
theorem Do_result_xor_err (deps : Deps) (order : MapOrder) (s : AliasesService) :
    (((s.Do deps order).result.isSome = true ∧ (s.Do deps order).err = none) ∨
      ((s.Do deps order).result = none ∧ (s.Do deps order).err.isSome = true)) ∧
    (∀ e, deps.NewRequest "GET" (doPath deps.cleanPathString s) = .error e →
      (s.Do deps order).result = none ∧ (s.Do deps order).err = some e ∧
      (s.Do deps order).sent = none) ∧
    (∀ req e, deps.NewRequest "GET" (doPath deps.cleanPathString s) = .ok req →
      deps.clientDo req = .error e →
      (s.Do deps order).result = none ∧ (s.Do deps order).err = some e) ∧
    (∀ req res e, deps.NewRequest "GET" (doPath deps.cleanPathString s) = .ok req →
      deps.clientDo req = .ok res → deps.checkResponse res = some e →
      (s.Do deps order).result = none ∧ (s.Do deps order).err = some e) ∧
    (∀ req res e, deps.NewRequest "GET" (doPath deps.cleanPathString s) = .ok req →
      deps.clientDo req = .ok res → deps.checkResponse res = none →
      (ioutilReadAll (resAfterDebug deps s res).Body).1 = .error e →
      (s.Do deps order).result = none ∧ (s.Do deps order).err = some e) := by
  refine ⟨?_, ?_, ?_, ?_, ?_⟩
  · rcases Do_early deps s with ⟨body, hb⟩ | ⟨e, he⟩
    · obtain ⟨hres, herr⟩ := Do_of_delivers deps order s body hb
      rw [hres, herr]
      cases doDecode order body <;> simp [Except.toOption]
    · obtain ⟨hres, herr⟩ := he order
      rw [hres, herr]
      simp
  · intro e h1
    simp [AliasesService.Do, h1]
  · intro req e h1 h2
    cases hd : s.debug <;> simp [AliasesService.Do, h1, h2, hd]
  · intro req res e h1 h2 h3
    cases hd : s.debug <;> simp [AliasesService.Do, h1, h2, h3, hd]
  · intro req res e h1 h2 h3 h4
    cases hd : s.debug <;> simp [AliasesService.Do, h1, h2, h3, h4, hd]

theorem Do_result_xor_err_witness :
    ((NewAliasesService.Do (Deps.refusing (.other "no url")) MapOrder.stored).result = none ∧
      (NewAliasesService.Do (Deps.refusing (.other "no url")) MapOrder.stored).err
        = some (.other "no url") ∧
      (NewAliasesService.Do (Deps.refusing (.other "no url")) MapOrder.stored).sent = none) ∧
    ((NewAliasesService.Do (Deps.unreachable (.other "refused")) MapOrder.stored).result = none ∧
      (NewAliasesService.Do (Deps.unreachable (.other "refused")) MapOrder.stored).err
        = some (.other "refused")) ∧
    ((NewAliasesService.Do (Deps.rejecting (.other "500") (.valid docIdxAB))
        MapOrder.stored).result = none ∧
      (NewAliasesService.Do (Deps.rejecting (.other "500") (.valid docIdxAB))
        MapOrder.stored).err = some (.other "500")) :=
  ⟨(Do_result_xor_err (Deps.refusing (.other "no url")) MapOrder.stored
      NewAliasesService).2.1 _ rfl,
    (Do_result_xor_err (Deps.unreachable (.other "refused")) MapOrder.stored
      NewAliasesService).2.2.1 _ _ rfl rfl,
    (Do_result_xor_err (Deps.rejecting (.other "500") (.valid docIdxAB)) MapOrder.stored
      NewAliasesService).2.2.2.1 _ _ _ rfl rfl rfl⟩

/-- C16 does not hold of the code: `defer res.Body.Close()` stands on line 94, after the
return of lines 91-93, so the body is closed at the return exactly when the response has
passed `checkResponse`. When `checkResponse` rejects a response, `Do` returns its error and
the body is left open; on success, on a body that cannot be read and on a body that does not
decode, the body is closed. -/
theorem Do_rejected_body_left_open (deps : Deps) (order : MapOrder) (s : AliasesService) :
    ((s.Do deps order).closed = true ↔
      ∃ req res, deps.NewRequest "GET" (doPath deps.cleanPathString s) = .ok req ∧
        deps.clientDo req = .ok res ∧ deps.checkResponse res = none) ∧
    (NewAliasesService.Do (Deps.rejecting (.other "500") (.valid (.object [])))
      MapOrder.stored).closed = false ∧
    (NewAliasesService.Do (Deps.rejecting (.other "500") (.valid (.object [])))
      MapOrder.stored).err = some (.other "500") ∧
    (NewAliasesService.Do (Deps.serving (.valid (.object []))) MapOrder.stored).closed = true ∧
    (NewAliasesService.Do (Deps.serving (.invalid "unexpected end of JSON input"))
      MapOrder.stored).closed = true ∧
    (NewAliasesService.Do (Deps.truncating (.other "unexpected EOF"))
      MapOrder.stored).closed = true :=
  ⟨Do_closed_iff deps order s, by decide, by decide, by decide, by decide, by decide⟩

theorem readAll_after_dump (text : Response → String) (res : Response)
    (h : res.Body.steady) :
    (ioutilReadAll (DumpResponse text res).2.Body).1 = (ioutilReadAll res.Body).1 := by
  obtain ⟨status, reads, closeErr⟩ := res
  cases reads with
  | nil =>
    have hc : closeErr = none := h
    subst hc
    rfl
  | cons outcome rest =>
    cases outcome with
    | ok content =>
      have hc : closeErr = none := h
      subst hc
      rfl
    | error e =>
      have hr : rest.head? = some (.error e) := h
      cases rest with
      | nil => simp at hr
      | cons next rest' =>
        simp only [List.head?_cons, Option.some.injEq] at hr
        subst hr
        rfl

/-- C17 fails as stated: with the same answer of the transport, `Do` with `debug` and `Do`
without it return different values when `Close` of the body fails, since the dump of `debug`
then leaves the body read to its end (a result without `debug`, a syntax error with it), and
when a reading of the body fails and the next one does not (the error of the reading without
`debug`, a result with it). -/
theorem Do_debug_changes_return :
    ((NewAliasesService.Debug false).Do
      (Deps.answering (Body.failingClose (.valid docIdxAB) (.other "close")))
      MapOrder.stored).result
      = some { Indices := [("idx", { Aliases := .mk [{ AliasName := "a" },
          { AliasName := "b" }] })] } ∧
    ((NewAliasesService.Debug false).Do
      (Deps.answering (Body.failingClose (.valid docIdxAB) (.other "close")))
      MapOrder.stored).err = none ∧
    ((NewAliasesService.Debug true).Do
      (Deps.answering (Body.failingClose (.valid docIdxAB) (.other "close")))
      MapOrder.stored).result = none ∧
    ((NewAliasesService.Debug true).Do
      (Deps.answering (Body.failingClose (.valid docIdxAB) (.other "close")))
      MapOrder.stored).err = some (.SyntaxError "unexpected end of JSON input") ∧
    ((NewAliasesService.Debug false).Do
      (Deps.answering (Body.stumbling (.other "reset") (.valid (.object []))))
      MapOrder.stored).result = none ∧
    ((NewAliasesService.Debug false).Do
      (Deps.answering (Body.stumbling (.other "reset") (.valid (.object []))))
      MapOrder.stored).err = some (.other "reset") ∧
    ((NewAliasesService.Debug true).Do
      (Deps.answering (Body.stumbling (.other "reset") (.valid (.object []))))
      MapOrder.stored).result = some { Indices := [] } ∧
    ((NewAliasesService.Debug true).Do
      (Deps.answering (Body.stumbling (.other "reset") (.valid (.object []))))
      MapOrder.stored).err = none := by
  decide

/-- C17, as the code has it: when every body that the transport returns is steady (it is read
to the end and closed without error, or a reading of it that fails is followed by one that
fails alike), two builders that differ only in `debug` make, with the same client, runs of
`Do` that return the same result and the same error, give the same url to `NewRequest`, send
the same request and close the body alike; without `debug` nothing is printed. -/
theorem Do_debug_irrelevant (deps : Deps) (order : MapOrder) (s : AliasesService)
    (hsteady : ∀ req res, deps.NewRequest "GET" (doPath deps.cleanPathString s) = .ok req →
      deps.clientDo req = .ok res → deps.checkResponse res = none → res.Body.steady) :
    ((s.Debug true).Do deps order).result = ((s.Debug false).Do deps order).result ∧
    ((s.Debug true).Do deps order).err = ((s.Debug false).Do deps order).err ∧
    ((s.Debug true).Do deps order).target = ((s.Debug false).Do deps order).target ∧
    ((s.Debug true).Do deps order).sent = ((s.Debug false).Do deps order).sent ∧
    ((s.Debug true).Do deps order).closed = ((s.Debug false).Do deps order).closed ∧
    ((s.Debug false).Do deps order).printed = [] ∧
    s.Debug s.debug = s := by
  have hp : ∀ b, doPath deps.cleanPathString (s.Debug b) = doPath deps.cleanPathString s :=
    fun _ => rfl
  have hq : ∀ b, doParams (s.Debug b) = doParams s := fun _ => rfl
  have hb : ∀ b, (s.Debug b).debug = b := fun _ => rfl
  have hs : s.Debug s.debug = s := by cases s; rfl
  have hon : ∀ res, resAfterDebug deps (s.Debug true) res =
      (DumpResponse deps.responseText res).2 := fun _ => rfl
  have hoff : ∀ res, resAfterDebug deps (s.Debug false) res = res := fun _ => rfl
  simp only [AliasesService.Do, hp, hq, hb, hs, hon, hoff]
  cases h1 : deps.NewRequest "GET" (doPath deps.cleanPathString s) with
  | error e => simp
  | ok req =>
    cases h2 : deps.clientDo req with
    | error e => simp [h2]
    | ok res =>
      cases h3 : deps.checkResponse res with
      | some e => simp [h2, h3]
      | none =>
        have hread := readAll_after_dump deps.responseText res (hsteady req res h1 h2 h3)
        cases h4 : (ioutilReadAll res.Body).1 with
        | error e => simp [h2, h3, h4, hread]
        | ok body => cases h5 : doDecode order body <;> simp [h2, h3, h4, h5, hread]

theorem Do_debug_irrelevant_witness :
    (∀ req res, (Deps.serving (.valid docIdxAB)).NewRequest "GET"
        (doPath (Deps.serving (.valid docIdxAB)).cleanPathString
          (NewAliasesService.Index "idx")) = .ok req →
      (Deps.serving (.valid docIdxAB)).clientDo req = .ok res →
      (Deps.serving (.valid docIdxAB)).checkResponse res = none → res.Body.steady) ∧
    (((NewAliasesService.Index "idx").Debug true).Do (Deps.serving (.valid docIdxAB))
        MapOrder.stored).result =
      (((NewAliasesService.Index "idx").Debug false).Do (Deps.serving (.valid docIdxAB))
        MapOrder.stored).result ∧
    (((NewAliasesService.Index "idx").Debug true).Do (Deps.serving (.valid docIdxAB))
        MapOrder.stored).err =
      (((NewAliasesService.Index "idx").Debug false).Do (Deps.serving (.valid docIdxAB))
        MapOrder.stored).err ∧
    (((NewAliasesService.Index "idx").Debug true).Do (Deps.serving (.valid docIdxAB))
        MapOrder.stored).target =
      (((NewAliasesService.Index "idx").Debug false).Do (Deps.serving (.valid docIdxAB))
        MapOrder.stored).target ∧
    (((NewAliasesService.Index "idx").Debug true).Do (Deps.serving (.valid docIdxAB))
        MapOrder.stored).sent =
      (((NewAliasesService.Index "idx").Debug false).Do (Deps.serving (.valid docIdxAB))
        MapOrder.stored).sent ∧
    (((NewAliasesService.Index "idx").Debug true).Do (Deps.serving (.valid docIdxAB))
        MapOrder.stored).closed =
      (((NewAliasesService.Index "idx").Debug false).Do (Deps.serving (.valid docIdxAB))
        MapOrder.stored).closed ∧
    (((NewAliasesService.Index "idx").Debug false).Do (Deps.serving (.valid docIdxAB))
        MapOrder.stored).printed = [] ∧
    (NewAliasesService.Index "idx").Debug (NewAliasesService.Index "idx").debug
      = NewAliasesService.Index "idx" :=
  ⟨fun _ _ _ h2 _ => by cases h2; rfl,
    Do_debug_irrelevant (Deps.serving (.valid docIdxAB)) MapOrder.stored
      (NewAliasesService.Index "idx") (fun _ _ _ h2 _ => by cases h2; rfl)⟩

/-! ## The decoder under two orders of visit -/

theorem jsonUnmarshal_ok (body : Scan) (indexMap : GoMap GoVal)
    (h : jsonUnmarshal body [] = .ok indexMap) :
    (body = .valid .null ∧ indexMap = []) ∨
    ∃ members, body = .valid (.object members) ∧ Json.rangeErrorAmong? members = none ∧
      indexMap = Json.toGoMap [] members := by
  cases body with
  | invalid msg => simp [jsonUnmarshal] at h
  | valid v =>
    cases v with
    | object members =>
      cases hr : Json.rangeErrorAmong? members with
      | some literal => simp [jsonUnmarshal, hr] at h
      | none =>
        simp only [jsonUnmarshal, hr, Except.ok.injEq] at h
        exact Or.inr ⟨members, rfl, hr, h.symm⟩
    | null =>
      simp only [jsonUnmarshal, Except.ok.injEq] at h
      exact Or.inl ⟨rfl, h.symm⟩
    | _ => simp [jsonUnmarshal] at h

theorem jsonUnmarshal_WF (body : Scan) (indexMap : GoMap GoVal)
    (h : jsonUnmarshal body [] = .ok indexMap) : GoMap.WF indexMap := by
  have hnil : GoMap.WF ([] : GoMap GoVal) := by simp [GoMap.WF, GoMap.keys]
  rcases jsonUnmarshal_ok body indexMap h with ⟨-, rfl⟩ | ⟨members, -, -, rfl⟩
  · exact hnil
  · exact WF_toGoMap members [] hnil

theorem doDecode_of_unmarshal (order : MapOrder) (body : Scan) (indexMap : GoMap GoVal)
    (h : jsonUnmarshal body [] = .ok indexMap) :
    doDecode order body = .ok { Indices := decodedIndices order indexMap } := by
  simp only [doDecode, h, doIndices_eq order indexMap (jsonUnmarshal_WF body indexMap h)]

theorem doDecode_of_unmarshal_error (order : MapOrder) (body : Scan) (e : GoError)
    (h : jsonUnmarshal body [] = .error e) : doDecode order body = .error e := by
  simp only [doDecode, h]

theorem get?_decodedIndices (order : MapOrder) (indexMap : GoMap GoVal)
    (hwf : GoMap.WF indexMap) (i : String) :
    GoMap.get? (decodedIndices order indexMap) i =
      (GoMap.get? indexMap i).map (freshEntry order i) := by
  unfold decodedIndices
  rw [get?_map_entries (freshEntry order), get?_perm _ _ (order.perm GoVal none _) hwf]

theorem freshEntry_perm (o1 o2 : MapOrder) (i : String) (indexData : GoVal) :
    (freshEntry o1 i indexData).Aliases.toList.Perm
      (freshEntry o2 i indexData).Aliases.toList := by
  cases indexData with
  | map indexDataMap =>
    simp only [freshEntry]
    cases hget : GoMap.get? indexDataMap "aliases" with
    | none => exact List.Perm.refl _
    | some w =>
      cases w with
      | map aliasesData =>
        simp only [Slice.toList]
        exact ((o1.perm GoVal (some i) aliasesData).trans
          (o2.perm GoVal (some i) aliasesData).symm).map _
      | _ => exact List.Perm.refl _
  | _ => exact List.Perm.refl _

theorem decodedIndices_sameUpToOrder (o1 o2 : MapOrder) (indexMap : GoMap GoVal)
    (hwf : GoMap.WF indexMap) :
    AliasesResult.sameUpToOrder { Indices := decodedIndices o1 indexMap }
      { Indices := decodedIndices o2 indexMap } := by
  refine ⟨(keys_decoded o1 indexMap).trans (keys_decoded o2 indexMap).symm, fun i => ?_⟩
  rw [get?_decodedIndices o1 indexMap hwf, get?_decodedIndices o2 indexMap hwf]
  cases GoMap.get? indexMap i with
  | none => exact Option.Rel.none
  | some v => exact Option.Rel.some (freshEntry_perm o1 o2 i v)

/-- C18: with the same client and the same builder, two runs of `Do` under any two orders of
visit of the maps return the same error, and either both no result or two results with the
same keys of `Indices` and, under every key, alias lists that are rearrangements of one
another. -/
theorem Do_same_up_to_order (deps : Deps) (o1 o2 : MapOrder) (s : AliasesService) :
    (s.Do deps o1).err = (s.Do deps o2).err ∧
    Option.Rel AliasesResult.sameUpToOrder (s.Do deps o1).result (s.Do deps o2).result ∧
    Option.Rel
      (fun a1 a2 : AliasesResult =>
        (∀ k, k ∈ GoMap.keys a1.Indices ↔ k ∈ GoMap.keys a2.Indices) ∧
        ∀ i e1 e2, GoMap.get? a1.Indices i = some e1 → GoMap.get? a2.Indices i = some e2 →
          e1.Aliases.toList.Perm e2.Aliases.toList)
      (s.Do deps o1).result (s.Do deps o2).result := by
  have hweak : ∀ a1 a2 : AliasesResult, a1.sameUpToOrder a2 →
      (∀ k, k ∈ GoMap.keys a1.Indices ↔ k ∈ GoMap.keys a2.Indices) ∧
      ∀ i e1 e2, GoMap.get? a1.Indices i = some e1 → GoMap.get? a2.Indices i = some e2 →
        e1.Aliases.toList.Perm e2.Aliases.toList := by
    intro a1 a2 hsame
    refine ⟨fun k => hsame.1.mem_iff, fun i e1 e2 h1 h2 => ?_⟩
    have hrel := hsame.2 i
    rw [h1, h2] at hrel
    cases hrel with
    | some hp => exact hp
  rcases Do_early deps s with ⟨body, hb⟩ | ⟨e, he⟩
  · obtain ⟨hres1, herr1⟩ := Do_of_delivers deps o1 s body hb
    obtain ⟨hres2, herr2⟩ := Do_of_delivers deps o2 s body hb
    rw [hres1, herr1, hres2, herr2]
    cases hu : jsonUnmarshal body [] with
    | error e =>
      rw [doDecode_of_unmarshal_error o1 body e hu, doDecode_of_unmarshal_error o2 body e hu]
      exact ⟨rfl, Option.Rel.none, Option.Rel.none⟩
    | ok indexMap =>
      rw [doDecode_of_unmarshal o1 body indexMap hu, doDecode_of_unmarshal o2 body indexMap hu]
      have hsame := decodedIndices_sameUpToOrder o1 o2 indexMap (jsonUnmarshal_WF body indexMap hu)
      exact ⟨rfl, Option.Rel.some hsame, Option.Rel.some (hweak _ _ hsame)⟩
  · rw [(he o1).1, (he o1).2, (he o2).1, (he o2).2]
    exact ⟨rfl, Option.Rel.none, Option.Rel.none⟩

/-- C19: on a result whose `Indices` is a Go map, the index name `i` is in
`IndicesByAlias(a)` exactly when `Indices` has an entry under `i` on which `HasAlias(a)` is
true; and `i` is in it as many times as the alias list under `i` has entries named `a`, no
time at all when `Indices` has no entry under `i`. -/
theorem IndicesByAlias_agrees_HasAlias (order : MapOrder) (ar : AliasesResult) (a : String)
    (hwf : GoMap.WF ar.Indices) :
    (∀ i, i ∈ (ar.IndicesByAlias order a).toList ↔
      ∃ ir, GoMap.get? ar.Indices i = some ir ∧ ir.HasAlias a = true) ∧
    (∀ i ir, GoMap.get? ar.Indices i = some ir →
      (ar.IndicesByAlias order a).toList.count i =
        ir.Aliases.toList.countP fun x => x.AliasName = a) ∧
    (∀ i, GoMap.get? ar.Indices i = none → (ar.IndicesByAlias order a).toList.count i = 0) := by
  refine ⟨fun i => ?_, fun i ir hget => ?_, fun i hget => ?_⟩
  · rw [mem_IndicesByAlias]
    constructor
    · rintro ⟨ir, hmem, hx⟩
      exact ⟨ir, GoMap.get?_of_mem _ i ir hwf hmem, (hasAliasFrom_iff a _).mpr hx⟩
    · rintro ⟨ir, hget, hx⟩
      exact ⟨ir, GoMap.mem_of_get? _ i ir hget, (hasAliasFrom_iff a _).mp hx⟩
  · rw [count_IndicesByAlias order ar a i hwf, hget]
    rfl
  · rw [count_IndicesByAlias order ar a i hwf, hget]
    rfl

theorem IndicesByAlias_agrees_HasAlias_witness :
    GoMap.WF (AliasesResult.Indices
      { Indices := [("logs-2024", { Aliases := .mk [{ AliasName := "all" },
          { AliasName := "current" }, { AliasName := "all" }] }),
        ("logs-2023", { Aliases := .mk [{ AliasName := "old" }] })] }) ∧
    ((∀ i, i ∈ (AliasesResult.IndicesByAlias MapOrder.backwards
        { Indices := [("logs-2024", { Aliases := .mk [{ AliasName := "all" },
            { AliasName := "current" }, { AliasName := "all" }] }),
          ("logs-2023", { Aliases := .mk [{ AliasName := "old" }] })] } "all").toList ↔
      ∃ ir, GoMap.get? (AliasesResult.Indices
          { Indices := [("logs-2024", { Aliases := .mk [{ AliasName := "all" },
              { AliasName := "current" }, { AliasName := "all" }] }),
            ("logs-2023", { Aliases := .mk [{ AliasName := "old" }] })] }) i = some ir ∧
        ir.HasAlias "all" = true) ∧
    (∀ i ir, GoMap.get? (AliasesResult.Indices
          { Indices := [("logs-2024", { Aliases := .mk [{ AliasName := "all" },
              { AliasName := "current" }, { AliasName := "all" }] }),
            ("logs-2023", { Aliases := .mk [{ AliasName := "old" }] })] }) i = some ir →
      (AliasesResult.IndicesByAlias MapOrder.backwards
        { Indices := [("logs-2024", { Aliases := .mk [{ AliasName := "all" },
            { AliasName := "current" }, { AliasName := "all" }] }),
          ("logs-2023", { Aliases := .mk [{ AliasName := "old" }] })] } "all").toList.count i =
        ir.Aliases.toList.countP fun x => x.AliasName = "all") ∧
    (∀ i, GoMap.get? (AliasesResult.Indices
          { Indices := [("logs-2024", { Aliases := .mk [{ AliasName := "all" },
              { AliasName := "current" }, { AliasName := "all" }] }),
            ("logs-2023", { Aliases := .mk [{ AliasName := "old" }] })] }) i = none →
      (AliasesResult.IndicesByAlias MapOrder.backwards
        { Indices := [("logs-2024", { Aliases := .mk [{ AliasName := "all" },
            { AliasName := "current" }, { AliasName := "all" }] }),
          ("logs-2023", { Aliases := .mk [{ AliasName := "old" }] })] } "all").toList.count i
        = 0)) ∧
    AliasesResult.IndicesByAlias MapOrder.backwards
        { Indices := [("logs-2024", { Aliases := .mk [{ AliasName := "all" },
            { AliasName := "current" }, { AliasName := "all" }] }),
          ("logs-2023", { Aliases := .mk [{ AliasName := "old" }] })] } "all"
      = .mk ["logs-2024", "logs-2024"] :=
  ⟨by decide, IndicesByAlias_agrees_HasAlias MapOrder.backwards _ "all" (by decide), by decide⟩

/-! ## The lookup in the loop of `Do` -/

theorem foldl_doIndex_prefix (order : MapOrder) (indexMap : GoMap GoVal)
    (hwf : GoMap.WF indexMap) (pre post : GoMap GoVal) (k : String) (v : GoVal)
    (hsplit : order.range GoVal none indexMap = pre ++ (k, v) :: post) :
    k ∉ GoMap.keys (pre.foldl (fun ret entry => doIndex order ret entry.1 entry.2)
      { Indices := [] }).Indices := by
  have hnd : (GoMap.keys (order.range GoVal none indexMap)).Nodup :=
    (List.Perm.nodup_iff ((order.perm GoVal none indexMap).map Prod.fst)).mpr hwf
  rw [hsplit] at hnd
  have hnd' : (GoMap.keys pre ++ k :: GoMap.keys post).Nodup := by
    simpa [GoMap.keys] using hnd
  have hpre : (GoMap.keys pre).Nodup := (List.nodup_append.mp hnd').1
  have hk : k ∉ GoMap.keys pre := fun hmem =>
    (List.nodup_append.mp hnd').2.2 hmem (List.mem_cons_self _ _)
  rw [foldl_doIndex order pre { Indices := [] } (by simpa using hpre)]
  simpa [GoMap.keys, Function.comp_def] using hk

/-- C20: when `json.Unmarshal` has filled `indexMap`, at every round of the loop of `Do`,
whatever the order of the visit, the lookup `ret.Indices[indexName]` finds nothing, so the
round stores, under a new key, an entry built from the empty list of `make`; and in the
result no alias list holds the same alias name twice. -/
theorem doIndices_never_found (order : MapOrder) (body : Scan) (indexMap : GoMap GoVal)
    (h : jsonUnmarshal body [] = .ok indexMap) :
    (∀ pre k v post, order.range GoVal none indexMap = pre ++ (k, v) :: post →
      GoMap.get? (pre.foldl (fun ret entry => doIndex order ret entry.1 entry.2)
        { Indices := [] }).Indices k = none ∧
      doIndex order (pre.foldl (fun ret entry => doIndex order ret entry.1 entry.2)
        { Indices := [] }) k v =
        { Indices := (pre.foldl (fun ret entry => doIndex order ret entry.1 entry.2)
            { Indices := [] }).Indices ++ [(k, freshEntry order k v)] }) ∧
    (∀ i entry, GoMap.get? (doIndices order indexMap).Indices i = some entry →
      (entry.Aliases.toList.map fun x => x.AliasName).Nodup) := by
  have hwf := jsonUnmarshal_WF body indexMap h
  refine ⟨fun pre k v post hsplit => ?_, fun i entry hget => ?_⟩
  · have hk := foldl_doIndex_prefix order indexMap hwf pre post k v hsplit
    exact ⟨(GoMap.get?_eq_none _ _).mpr hk, doIndex_fresh order _ k v hk⟩
  · rw [doIndices_eq order indexMap hwf] at hget
    rcases jsonUnmarshal_ok body indexMap h with ⟨-, rfl⟩ | ⟨members, -, -, rfl⟩
    · have hnil := List.perm_nil.mp (order.perm GoVal none [])
      simp [decodedIndices, hnil, GoMap.get?] at hget
    · obtain ⟨v, -, rfl⟩ :=
        (mem_decodedIndices order members i entry).mp (GoMap.mem_of_get? _ i entry hget)
      exact nodup_freshEntry_names order i v

theorem doIndices_never_found_witness :
    jsonUnmarshal (.valid (.object [("idx", .object [("aliases",
        .object [("a", .object []), ("b", .object []), ("a", .null)])]), ("old", .null),
        ("idx", .object [("aliases", .object [("b", .object []), ("b", .object [])])])])) []
      = .ok [("idx", .map [("aliases", .map [("b", .map [])])]), ("old", .nil)] ∧
    ((∀ pre k v post, MapOrder.backwards.range GoVal none
          [("idx", .map [("aliases", .map [("b", .map [])])]), ("old", .nil)]
          = pre ++ (k, v) :: post →
      GoMap.get? (pre.foldl
        (fun ret entry => doIndex MapOrder.backwards ret entry.1 entry.2)
        { Indices := [] }).Indices k = none ∧
      doIndex MapOrder.backwards (pre.foldl
        (fun ret entry => doIndex MapOrder.backwards ret entry.1 entry.2)
        { Indices := [] }) k v =
        { Indices := (pre.foldl
            (fun ret entry => doIndex MapOrder.backwards ret entry.1 entry.2)
            { Indices := [] }).Indices ++ [(k, freshEntry MapOrder.backwards k v)] }) ∧
    (∀ i entry, GoMap.get? (doIndices MapOrder.backwards
          [("idx", .map [("aliases", .map [("b", .map [])])]), ("old", .nil)]).Indices i
        = some entry →
      (entry.Aliases.toList.map fun x => x.AliasName).Nodup)) ∧
    doIndices MapOrder.backwards
        [("idx", .map [("aliases", .map [("b", .map [])])]), ("old", .nil)]
      = { Indices := [("old", { Aliases := .mk [] }),
          ("idx", { Aliases := .mk [{ AliasName := "b" }] })] } :=
  ⟨rfl,
    doIndices_never_found MapOrder.backwards
      (.valid (.object [("idx", .object [("aliases",
        .object [("a", .object []), ("b", .object []), ("a", .null)])]), ("old", .null),
        ("idx", .object [("aliases", .object [("b", .object []), ("b", .object [])])])]))
      [("idx", .map [("aliases", .map [("b", .map [])])]), ("old", .nil)] rfl,
    by decide⟩

end Elastic
